import Mathlib

/-!
Verification of the molecular-weight formula parser and the chemical
equation evaluator of the `chemics` library.

The definitions below are shallow embeddings of the Python source:

* `src/chemics/molecular_weight.py` — `_find_end`, `_parse`, `mw`;
* `src/chemics/chemical_equation.py` — the `ChemicalEquation` class;
* `src/chemics/elements.py` — the atomic-weight table (the same data the
  code imports under the name `atomic_elements`).

Python floats are modelled as rationals (`ℚ`); the decimal literals of the
source are exact decimal fractions here.  Python exceptions are modelled
with `Except`/`Option`.
-/

namespace Chemics

/-- Python exceptions the parser in `molecular_weight.py` can raise:
`ValueError('Unmatched parentheses')` from `_find_end`, `IndexError` from
`stack[-1]` on an empty list, `TypeError` from arithmetic on `None`. -/
inductive PyErr where
  | valueError
  | indexError
  | typeError
deriving DecidableEq, Repr

/-- A token produced by `re.findall(r'[A-Z][a-z]*|\d+|\(|\)', formula)`:
an element-symbol match, a digit run (carrying its integer value), or a
single parenthesis. -/
inductive Token where
  | elem : String → Token
  | num : ℕ → Token
  | lpar : Token
  | rpar : Token
deriving DecidableEq, Repr

/-- Atomic-weight table from `src/chemics/elements.py` (the dictionary the
molecular-weight module imports as `atomic_elements`): symbol mapped to
`atomic_weight`, where `none` models a Python `None` entry. -/
def atomicElements : List (String × Option ℚ) := [
  ("H", some 1.008), ("He", some 4.0026), ("Li", some 6.94),
  ("Be", some 9.0122), ("B", some 10.81), ("C", some 12.011),
  ("N", some 14.007), ("O", some 15.999), ("F", some 18.998),
  ("Ne", some 20.180), ("Na", some 22.990), ("Mg", some 24.305),
  ("Al", some 26.982), ("Si", some 28.085), ("P", some 30.974),
  ("S", some 32.06), ("Cl", some 35.45), ("Ar", some 39.948),
  ("K", some 39.098), ("Ca", some 40.078), ("Sc", some 44.956),
  ("Ti", some 47.867), ("V", some 50.942), ("Cr", some 51.996),
  ("Mn", some 54.938), ("Fe", some 55.845), ("Co", some 58.933),
  ("Ni", some 58.693), ("Cu", some 63.546), ("Zn", some 65.38),
  ("Ga", some 69.723), ("Ge", some 72.630), ("As", some 74.922),
  ("Se", some 78.971), ("Br", some 79.904), ("Kr", some 83.798),
  ("Rb", some 85.468), ("Sr", some 87.62), ("Y", some 88.906),
  ("Zr", some 91.224), ("Nb", some 92.906), ("Mo", some 95.95),
  ("Tc", none), ("Ru", some 101.07), ("Rh", some 102.91),
  ("Pd", some 106.42), ("Ag", some 107.87), ("Cd", some 112.41),
  ("In", some 114.82), ("Sn", some 118.71), ("Sb", some 121.76),
  ("Te", some 127.60), ("I", some 126.90), ("Xe", some 131.29),
  ("Cs", some 132.91), ("Ba", some 137.33), ("La", some 138.91),
  ("Ce", some 140.12), ("Pr", some 140.91), ("Nd", some 144.24),
  ("Pm", none), ("Sm", some 150.36), ("Eu", some 151.96),
  ("Gd", some 157.25), ("Tb", some 158.93), ("Dy", some 162.50),
  ("Ho", some 164.93), ("Er", some 167.26), ("Tm", some 168.93),
  ("Yb", some 173.05), ("Lu", some 174.97), ("Hf", some 178.49),
  ("Ta", some 180.95), ("W", some 183.84), ("Re", some 186.21),
  ("Os", some 190.23), ("Ir", some 192.22), ("Pt", some 195.08),
  ("Au", some 196.97), ("Hg", some 200.59), ("Tl", some 204.38),
  ("Pb", some 207.2), ("Bi", some 208.98), ("Po", none),
  ("At", none), ("Rn", none), ("Fr", none), ("Ra", none), ("Ac", none),
  ("Th", some 232.04), ("Pa", some 231.04), ("U", some 238.03),
  ("Np", none), ("Pu", none), ("Am", none), ("Cm", none), ("Bk", none),
  ("Cf", none), ("Es", none), ("Fm", none), ("Md", none), ("No", none),
  ("Lr", none), ("Rf", none), ("Db", none), ("Sg", none), ("Bh", none),
  ("Hs", none), ("Mt", none), ("Ds", none), ("Rg", none), ("Cn", none),
  ("Nh", none), ("Fl", none), ("Mc", none), ("Lv", none), ("Ts", none),
  ("Og", none)]

/-- `t in atomic_elements` together with `atomic_elements[t]['atomic_weight']`:
`none` when the symbol is absent, `some w` when present with weight `w`
(`w = none` modelling a `None` atomic weight). -/
def atomicWeight (s : String) : Option (Option ℚ) :=
  atomicElements.lookup s

/-- Python `int(t)` on a digit-run string, as a fold over its characters. -/
def digitsVal (cs : List Char) : ℕ :=
  cs.foldl (fun a c => 10 * a + (c.toNat - 48)) 0

/-- The tokenizer `re.findall(r'[A-Z][a-z]*|\d+|\(|\)', formula)`: scan
left to right, emitting a maximal `[A-Z][a-z]*` element symbol, a maximal
digit run (as its integer value), or a single parenthesis; characters that
match no alternative are skipped. -/
def tokenize : List Char → List Token
  | [] => []
  | c :: cs =>
    if c = '(' then Token.lpar :: tokenize cs
    else if c = ')' then Token.rpar :: tokenize cs
    else if c.isUpper then
      Token.elem (String.mk (c :: cs.takeWhile Char.isLower)) ::
        tokenize (cs.dropWhile Char.isLower)
    else if c.isDigit then
      Token.num (digitsVal (c :: cs.takeWhile Char.isDigit)) ::
        tokenize (cs.dropWhile Char.isDigit)
    else tokenize cs
termination_by l => l.length
decreasing_by
  all_goals
    have hdw : ∀ (p : Char → Bool) (l : List Char),
        (List.dropWhile p l).length ≤ l.length := by
      intro p l
      induction l with
      | nil => exact Nat.le_refl _
      | cons c cs ih =>
        rw [List.dropWhile_cons]
        split
        · exact Nat.le_trans ih (Nat.le_succ _)
        · exact Nat.le_refl _
    simp only [List.length_cons]
    first
    | omega
    | exact Nat.lt_succ_of_le (hdw _ _)

/-- Loop body of `_find_end`: running parenthesis count (an integer, as in
Python) and current index; `)` decrements and returns the index when the
count reaches zero, `(` increments, anything else is skipped. -/
def findEndGo (count : ℤ) (idx : ℕ) : List Token → Option ℕ
  | [] => none
  | t :: ts =>
    if t = Token.rpar then
      if count - 1 = 0 then some idx else findEndGo (count - 1) (idx + 1) ts
    else if t = Token.lpar then findEndGo (count + 1) (idx + 1) ts
    else findEndGo count (idx + 1) ts

/-- `_find_end(tokens)`: index of the closing parenthesis matching the
opening one, `none` modelling `ValueError('Unmatched parentheses')`. -/
def findEnd (tokens : List Token) : Option ℕ :=
  findEndGo 0 0 tokens

/-- Python `sum(stack)` over a list of float-or-`None` entries: `0` on the
empty list, `TypeError` as soon as a `None` participates. -/
def sumStack : List (Option ℚ) → Except PyErr ℚ
  | [] => Except.ok 0
  | none :: _ => Except.error PyErr.typeError
  | some w :: rest => (sumStack rest).map (fun x => w + x)

/-- `_parse(tokens, stack)` from `molecular_weight.py`.  The stack grows at
its head.  `(` finds its matching `)`, evaluates the enclosed span with a
fresh stack and pushes the result; a known element symbol pushes its
atomic weight (possibly `None`); a digit run multiplies the top of the
stack (`IndexError` when the stack is empty, `TypeError` on a `None`
top); any other token — a stray `)` or an unknown symbol — is skipped;
exhausted tokens return `sum(stack)`. -/
def parse : List Token → List (Option ℚ) → Except PyErr ℚ
  | [], stack => sumStack stack
  | Token.lpar :: ts, stack =>
    match findEnd (Token.lpar :: ts) with
    | none => Except.error PyErr.valueError
    | some e =>
      match parse (ts.take (e - 1)) [] with
      | Except.error err => Except.error err
      | Except.ok w => parse (ts.drop e) (some w :: stack)
  | Token.elem s :: ts, stack =>
    match atomicWeight s with
    | some w => parse ts (w :: stack)
    | none => parse ts stack
  | Token.num n :: ts, stack =>
    match stack with
    | [] => Except.error PyErr.indexError
    | none :: _ => Except.error PyErr.typeError
    | some w :: rest => parse ts (some (w * n) :: rest)
  | Token.rpar :: ts, stack => parse ts stack
termination_by ts _ => ts.length
decreasing_by
  · simp only [List.length_cons, List.length_take]; omega
  · simp only [List.length_cons, List.length_drop]; omega
  all_goals simp only [List.length_cons]; omega

/-- `mw(formula)`: tokenize the formula and parse the token list with an
empty stack. -/
def mw (formula : String) : Except PyErr ℚ :=
  parse (tokenize formula.data) []

/-- Python `str.split('->')`: split on each non-overlapping occurrence of
the two-character arrow, scanning left to right. -/
def splitArrow : List Char → List (List Char)
  | [] => [[]]
  | '-' :: '>' :: cs => [] :: splitArrow cs
  | c :: cs =>
    match splitArrow cs with
    | [] => [[c]]
    | h :: t => (c :: h) :: t

/-- Python `str.split('+')`. -/
def splitPlus : List Char → List (List Char)
  | [] => [[]]
  | '+' :: cs => [] :: splitPlus cs
  | c :: cs =>
    match splitPlus cs with
    | [] => [[c]]
    | h :: t => (c :: h) :: t

/-- Python `str.strip()`: drop whitespace from both ends. -/
def pyStrip (cs : List Char) : List Char :=
  ((cs.dropWhile Char.isWhitespace).reverse.dropWhile Char.isWhitespace).reverse

/-- Python `str.split()` with no argument: split on whitespace runs,
discarding empty pieces. -/
def pyWords : List Char → List (List Char)
  | [] => []
  | c :: cs =>
    if c.isWhitespace then pyWords cs
    else
      (c :: cs.takeWhile (fun d => !d.isWhitespace)) ::
        pyWords (cs.dropWhile (fun d => !d.isWhitespace))
termination_by l => l.length
decreasing_by
  all_goals
    have hdw : ∀ (p : Char → Bool) (l : List Char),
        (List.dropWhile p l).length ≤ l.length := by
      intro p l
      induction l with
      | nil => exact Nat.le_refl _
      | cons c cs ih =>
        rw [List.dropWhile_cons]
        split
        · exact Nat.le_trans ih (Nat.le_succ _)
        · exact Nat.le_refl _
    simp only [List.length_cons]
    first
    | omega
    | exact Nat.lt_succ_of_le (hdw _ _)

/-- Python `float(s)` on the plain decimal coefficient strings the
equation grammar produces: a digit run optionally followed by `.` and a
digit run. -/
def parseFloat (cs : List Char) : Option ℚ :=
  let intPart := cs.takeWhile Char.isDigit
  if intPart = [] then none
  else
    match cs.dropWhile Char.isDigit with
    | [] => some (digitsVal intPart)
    | '.' :: fs =>
      if fs.all Char.isDigit then
        some ((digitsVal intPart : ℚ) + (digitsVal fs : ℚ) / 10 ^ fs.length)
      else none
    | _ => none

/-- The element-count extraction
`re.findall('([A-Z][a-z]?)([0-9]+)?', sp)` of `_equation_properties`: a
flat scan pairing each `[A-Z][a-z]?` element symbol with its trailing
digit run (`1.0` when the digits are absent); parentheses are skipped,
never expanded. -/
def flatScan : List Char → List (String × ℚ)
  | [] => []
  | [c] => if c.isUpper then [(String.mk [c], 1)] else []
  | c :: d :: rest =>
    if c.isUpper then
      if d.isLower then
        (String.mk [c, d],
          if rest.takeWhile Char.isDigit = [] then 1
          else (digitsVal (rest.takeWhile Char.isDigit) : ℚ)) ::
          flatScan (rest.dropWhile Char.isDigit)
      else
        (String.mk [c],
          if (d :: rest).takeWhile Char.isDigit = [] then 1
          else (digitsVal ((d :: rest).takeWhile Char.isDigit) : ℚ)) ::
          flatScan ((d :: rest).dropWhile Char.isDigit)
    else flatScan (d :: rest)
termination_by l => l.length
decreasing_by
  all_goals
    have hdw : ∀ (p : Char → Bool) (l : List Char),
        (List.dropWhile p l).length ≤ l.length := by
      intro p l
      induction l with
      | nil => exact Nat.le_refl _
      | cons c cs ih =>
        rw [List.dropWhile_cons]
        split
        · exact Nat.le_trans ih (Nat.le_succ _)
        · exact Nat.le_refl _
    simp only [List.length_cons]
    first
    | omega
    | exact Nat.lt_succ_of_le (hdw _ _)
    | exact Nat.lt_succ_of_le (Nat.le_succ_of_le (hdw _ _))

/-- `collections.Counter.update({k: v})`: add `v` to an existing key in
place (keeping its position) or append the new key at the end
(dictionaries preserve insertion order). -/
def counterUpdate (c : List (String × ℚ)) (k : String) (v : ℚ) :
    List (String × ℚ) :=
  if c.any (fun p => p.1 == k) then
    c.map (fun p => if p.1 == k then (p.1, p.2 + v) else p)
  else c ++ [(k, v)]

/-- The counter updates one equation item contributes: for each
`(element, atoms)` pair of the flat scan of its species formula, add
`atoms * mol`. -/
def itemCounterUpdates (counter : List (String × ℚ)) (sp : String)
    (mol : ℚ) : List (String × ℚ) :=
  (flatScan sp.data).foldl (fun acc p => counterUpdate acc p.1 (p.2 * mol))
    counter

/-- The `names` alias substitution of `_equation_properties`:
`if sp in self.names.keys(): sp = self.names[sp]`. -/
def resolveName (names : Option (List (String × String))) (sp : String) :
    String :=
  match names with
  | none => sp
  | some m =>
    match m.lookup sp with
    | some f => f
    | none => sp

/-- The `moles and chemical species` step of `_equation_properties` for
one item: an item starting with a digit splits into whitespace words, the
first parsed as a float coefficient, the second being the species token
(`IndexError`/`ValueError` — `none` — when either is missing or
malformed); otherwise the coefficient is `1.0` and the whole item is the
species token. -/
def itemMoleSpecies (c : List Char) : Option (ℚ × String) :=
  match c with
  | [] => none
  | ch :: _ =>
    if ch.isDigit then
      match pyWords c with
      | w0 :: w1 :: _ => (parseFloat w0).map (fun q => (q, String.mk w1))
      | _ => none
    else some (1, String.mk c)

/-- One pass of the `_equation_properties` loop: per item the resolved
species, its coefficient, molecular weight and mass, in order; `none`
when any item is malformed or its molecular-weight computation raises. -/
def eqItems (names : Option (List (String × String))) :
    List (List Char) → Option (List (String × ℚ × ℚ × ℚ))
  | [] => some []
  | c :: rest =>
    match itemMoleSpecies c with
    | none => none
    | some (mol, sp0) =>
      let sp := resolveName names sp0
      match mw sp with
      | Except.error _ => none
      | Except.ok w =>
        match eqItems names rest with
        | none => none
        | some tail => some ((sp, mol, w, mol * w) :: tail)

/-- The element counter accumulated over the items, in item order. -/
def eqCounter (items : List (String × ℚ × ℚ × ℚ)) : List (String × ℚ) :=
  items.foldl (fun acc it => itemCounterUpdates acc it.1 it.2.1) []

/-- Result record of `_equation_properties`. -/
structure EqProps where
  species : List String
  moles : List ℚ
  molwt : List ℚ
  mass : List ℚ
  elementCounter : List (String × ℚ)
  sumMoles : ℚ
  sumMass : ℚ
  molFracs : List ℚ
  massFracs : List ℚ
deriving DecidableEq, Repr

/-- `_equation_properties(comps)`: per-item species/moles/weights/masses,
the per-side element counter, the totals and the mole and mass fractions
(division by a zero total following the Lean convention `x / 0 = 0`,
where numpy would produce `nan`). -/
def equationProperties (names : Option (List (String × String)))
    (comps : List (List Char)) : Option EqProps :=
  (eqItems names comps).map (fun items =>
    let moles := items.map (fun it => it.2.1)
    let mass := items.map (fun it => it.2.2.2)
    let sumMoles := moles.sum
    let sumMass := mass.sum
    { species := items.map (fun it => it.1)
      moles := moles
      molwt := items.map (fun it => it.2.2.1)
      mass := mass
      elementCounter := eqCounter items
      sumMoles := sumMoles
      sumMass := sumMass
      molFracs := moles.map (fun m => m / sumMoles)
      massFracs := mass.map (fun m => m / sumMass) })

/-- `_check_balance`: zip the reactant tally values with the product
tally values — positionally, in insertion order, not by element key — and
require each pair to differ by at most `1e-4`; surplus entries of the
longer side are dropped by `zip`. -/
def checkBalance (rctElements prodElements : List (String × ℚ)) : Bool :=
  ((rctElements.map Prod.snd).zip (prodElements.map Prod.snd)).all
    (fun p => decide (|p.1 - p.2| ≤ 1 / 10000))

/-- The `ChemicalEquation` object: raw equation text and alias map, the
stripped reactant and product item strings, both sides' properties and
the balance flag. -/
structure ChemicalEquation where
  eq : String
  names : Option (List (String × String))
  reactants : List String
  products : List String
  rct : EqProps
  prod : EqProps
  balance : Bool
deriving DecidableEq, Repr

/-- `ChemicalEquation(eq, names)` construction: split on `'->'` (the part
before the first arrow and the part after it; missing arrow is a fatal
`IndexError`), split each side on `'+'`, strip each item, then compute
both sides' properties and the balance flag; any error while evaluating a
side aborts construction (`none`). -/
def mkChemicalEquation (eq : String)
    (names : Option (List (String × String))) : Option ChemicalEquation :=
  let parts := splitArrow eq.data
  match parts.get? 0, parts.get? 1 with
  | some r, some p =>
    let rcts := (splitPlus r).map pyStrip
    let prods := (splitPlus p).map pyStrip
    match equationProperties names rcts, equationProperties names prods with
    | some rprops, some pprops =>
      some { eq := eq
             names := names
             reactants := rcts.map String.mk
             products := prods.map String.mk
             rct := rprops
             prod := pprops
             balance := checkBalance rprops.elementCounter
               pprops.elementCounter }
    | _, _ => none
  | _, _ => none

/-- Per-species property record returned by `reactant_props` and
`product_props`. -/
structure SpeciesProps where
  moles : ℚ
  molWt : ℚ
  mass : ℚ
  molFrac : ℚ
  massFrac : ℚ
deriving DecidableEq, Repr

/-- Python `list.index(x)`: index of the first occurrence, `none`
modelling the `ValueError` when absent. -/
def listIndex (s : String) : List String → Option ℕ
  | [] => none
  | x :: xs => if x == s then some 0 else (listIndex s xs).map (fun i => i + 1)

/-- Shared body of `reactant_props`/`product_props`:
`species_list.index(species)` (`ValueError` — `none` — when absent), then
the entries of each per-item array at that index. -/
def propsLookup (props : EqProps) (species : String) : Option SpeciesProps :=
  match listIndex species props.species with
  | none => none
  | some i =>
    match props.moles.get? i, props.molwt.get? i, props.mass.get? i,
        props.molFracs.get? i, props.massFracs.get? i with
    | some m, some w, some ms, some mf, some sf =>
      some ⟨m, w, ms, mf, sf⟩
    | _, _, _, _, _ => none

/-- `reactant_props(species)`. -/
def reactantProps (ce : ChemicalEquation) (species : String) :
    Option SpeciesProps :=
  propsLookup ce.rct species

/-- `product_props(species)`. -/
def productProps (ce : ChemicalEquation) (species : String) :
    Option SpeciesProps :=
  propsLookup ce.prod species

/-- Dictionary lookup in an element counter with default `0`: the number
of atoms the counter records for an element. -/
def lookupCount : List (String × ℚ) → String → ℚ
  | [], _ => 0
  | p :: rest, k => if p.1 == k then p.2 else lookupCount rest k

/-- The number of atoms of one element the flat regex scan finds in a
species formula (parenthesized groups not expanded). -/
def flatCount (sp : String) (el : String) : ℚ :=
  ((flatScan sp.data).map (fun p => if p.1 == el then p.2 else 0)).sum

/-- Modelled from the spec (Balance, section 3): the balance flag the
spec describes — for every element appearing in either side's tally, the
reactant count and product count (zero when absent) differ by at most
`1e-4`.  Stated for comparison with the positional `checkBalance` the
code computes. -/
def specBalanced (rct prod : List (String × ℚ)) : Bool :=
  ((rct.map Prod.fst) ++ (prod.map Prod.fst)).all
    (fun k => decide (|lookupCount rct k - lookupCount prod k| ≤ 1 / 10000))

mutual

/-- Abstract syntax of one item of a molecular formula: an element symbol
or a parenthesized sub-formula, optionally carrying a digit-run
multiplicity (`none` renders as no digits at all, `some k` as the decimal
digits of `k`). -/
inductive Fitem where
  | atom : String → Option ℕ → Fitem
  | group : Flist → Option ℕ → Fitem

/-- Abstract syntax of a molecular formula: a sequence of items. -/
inductive Flist where
  | nil : Flist
  | cons : Fitem → Flist → Flist

end

/-- The multiplicity denoted by an optional digit run (absent means 1). -/
def multNat : Option ℕ → ℕ
  | none => 1
  | some k => k

/-- Tokens of an optional digit run. -/
def numTok : Option ℕ → List Token
  | none => []
  | some k => [Token.num k]

mutual

/-- Token sequence of one formula item. -/
def itemTokens : Fitem → List Token
  | .atom s m => Token.elem s :: numTok m
  | .group l m => Token.lpar :: (listTokens l ++ Token.rpar :: numTok m)

/-- Token sequence of a formula. -/
def listTokens : Flist → List Token
  | .nil => []
  | .cons f l => itemTokens f ++ listTokens l

end

/-- The decimal digit characters `'0'..'9'`. -/
def digitChar : ℕ → Char
  | 0 => '0'
  | 1 => '1'
  | 2 => '2'
  | 3 => '3'
  | 4 => '4'
  | 5 => '5'
  | 6 => '6'
  | 7 => '7'
  | 8 => '8'
  | _ => '9'

/-- Decimal rendering of a natural number (Python `str(k)`). -/
def natChars (n : ℕ) : List Char :=
  if n = 0 then ['0'] else ((Nat.digits 10 n).reverse).map digitChar

/-- Characters of an optional digit run. -/
def numChars : Option ℕ → List Char
  | none => []
  | some k => natChars k

mutual

/-- Characters of one formula item. -/
def itemChars : Fitem → List Char
  | .atom s m => s.data ++ numChars m
  | .group l m => '(' :: (listChars l ++ ')' :: numChars m)

/-- Characters of a formula. -/
def listChars : Flist → List Char
  | .nil => []
  | .cons f l => itemChars f ++ listChars l

end

/-- The formula string a formula tree denotes. -/
def render (l : Flist) : String :=
  String.mk (listChars l)

/-- The (non-`None`) atomic weight of a known element symbol, `0` for
anything else. -/
def wOf (s : String) : ℚ :=
  match atomicWeight s with
  | some (some w) => w
  | _ => 0

mutual

/-- Molecular weight of one item: atomic weight (or enclosed-group
weight) times the multiplicity. -/
def itemWeight : Fitem → ℚ
  | .atom s m => wOf s * multNat m
  | .group l m => listWeight l * multNat m

/-- Molecular weight of a formula: sum of its items. -/
def listWeight : Flist → ℚ
  | .nil => 0
  | .cons f l => itemWeight f + listWeight l

end

mutual

/-- The multiset of atoms (symbol, multiplicity) one item expands to,
with nesting multiplied through. -/
def itemAtoms : Fitem → List (String × ℕ)
  | .atom s m => [(s, multNat m)]
  | .group l m => (listAtoms l).map (fun p => (p.1, p.2 * multNat m))

/-- The multiset of atoms a formula expands to. -/
def listAtoms : Flist → List (String × ℕ)
  | .nil => []
  | .cons f l => itemAtoms f ++ listAtoms l

end

/-- Total weight of an expanded atom multiset: the sum over all atoms of
multiplicity times atomic weight. -/
def atomsWeight (A : List (String × ℕ)) : ℚ :=
  (A.map (fun p => (p.2 : ℚ) * wOf p.1)).sum

/-- Number of atoms of one element in an expanded atom multiset. -/
def atomsCount (A : List (String × ℕ)) (el : String) : ℕ :=
  ((A.filter (fun p => p.1 == el)).map (fun p => p.2)).sum

/-- An element-symbol spelling: one uppercase letter followed by
lowercase letters — exactly the strings the tokenizer regex
`[A-Z][a-z]*` can produce as one token. -/
def symbolOk (s : String) : Bool :=
  match s.data with
  | [] => false
  | c :: cs => c.isUpper && cs.all Char.isLower

/-- The symbol is in the atomic-weight table with a non-`None` weight. -/
def knownWeight (s : String) : Bool :=
  match atomicWeight s with
  | some (some _) => true
  | _ => false

mutual

/-- Well-formedness of one item: atoms carry a properly spelled symbol
with a known atomic weight; groups contain a well-formed formula. -/
def wfItem : Fitem → Bool
  | .atom s _ => symbolOk s && knownWeight s
  | .group l _ => wfList l

/-- Well-formedness of a formula. -/
def wfList : Flist → Bool
  | .nil => true
  | .cons f l => wfItem f && wfList l

end

/-- A suffix is a valid token separator when its first character can
extend neither an element symbol nor a digit run. -/
def sepOk : List Char → Prop
  | [] => True
  | c :: _ => c.isLower = false ∧ c.isDigit = false

/-- The stack `_parse` has built after consuming a formula's tokens: one
`some`-weight entry pushed per item, most recent on top. -/
def pushList : Flist → List (Option ℚ) → List (Option ℚ)
  | .nil, stack => stack
  | .cons f l, stack => pushList l (some (itemWeight f) :: stack)

/-- One step of the parenthesis-matching scan with saturating (natural)
depth: an open parenthesis raises the depth, a close lowers it (a close at
depth zero — one with no matching open — leaves it at zero), anything
else is neutral. -/
def stepCount (d : ℕ) (t : Token) : ℕ :=
  if t = Token.lpar then d + 1
  else if t = Token.rpar then d - 1
  else d

/-- Number of open parentheses of a token list left unclosed at the end
of the scan. -/
def openRem (ts : List Token) : ℕ :=
  ts.foldl stepCount 0

/-- The formula tree of `H2O`. -/
def astH2O : Flist :=
  Flist.cons (Fitem.atom "H" (some 2))
    (Flist.cons (Fitem.atom "O" none) Flist.nil)

/-- The formula tree of `(NH4)2SO4`. -/
def astNH4SO4 : Flist :=
  Flist.cons
    (Fitem.group
      (Flist.cons (Fitem.atom "N" none)
        (Flist.cons (Fitem.atom "H" (some 4)) Flist.nil)) (some 2))
    (Flist.cons (Fitem.atom "S" none)
      (Flist.cons (Fitem.atom "O" (some 4)) Flist.nil))

/-- The formula tree of `Ca(OH)2`. -/
def astCaOH2 : Flist :=
  Flist.cons (Fitem.atom "Ca" none)
    (Flist.cons
      (Fitem.group
        (Flist.cons (Fitem.atom "O" none)
          (Flist.cons (Fitem.atom "H" none) Flist.nil)) (some 2))
      Flist.nil)

theorem isUpper_not_lower {c : Char} (h : c.isUpper = true) :
    c.isLower = false := by
  simp [Char.isUpper] at h
  simp [Char.isLower]
  intro h2
  have h3 : c.val.toNat ≤ 90 := h.2
  have h4 : 97 ≤ c.val.toNat := h2
  omega

theorem isUpper_not_digit {c : Char} (h : c.isUpper = true) :
    c.isDigit = false := by
  simp [Char.isUpper] at h
  simp [Char.isDigit]
  intro h2
  have h3 : 65 ≤ c.val.toNat := h.1
  exact (by omega : (57 : ℕ) < c.val.toNat)

theorem isDigit_not_lower {c : Char} (h : c.isDigit = true) :
    c.isLower = false := by
  simp [Char.isDigit] at h
  simp [Char.isLower]
  intro h2
  have h3 : c.val.toNat ≤ 57 := h.2
  have h4 : 97 ≤ c.val.toNat := h2
  omega

theorem isDigit_not_upper {c : Char} (h : c.isDigit = true) :
    c.isUpper = false := by
  simp [Char.isDigit] at h
  simp [Char.isUpper]
  intro h2
  have h3 : c.val.toNat ≤ 57 := h.2
  have h4 : 65 ≤ c.val.toNat := h2
  omega

theorem isUpper_ne_lpar {c : Char} (h : c.isUpper = true) : c ≠ '(' := by
  intro hc; subst hc; simp at h

theorem isUpper_ne_rpar {c : Char} (h : c.isUpper = true) : c ≠ ')' := by
  intro hc; subst hc; simp at h

theorem isDigit_ne_lpar {c : Char} (h : c.isDigit = true) : c ≠ '(' := by
  intro hc; subst hc; simp at h

theorem isDigit_ne_rpar {c : Char} (h : c.isDigit = true) : c ≠ ')' := by
  intro hc; subst hc; simp at h

theorem digitChar_isDigit {d : ℕ} (h : d < 10) :
    (digitChar d).isDigit = true := by
  interval_cases d <;> rfl

theorem digitChar_toNat {d : ℕ} (h : d < 10) :
    (digitChar d).toNat = 48 + d := by
  interval_cases d <;> rfl

theorem natChars_ne_nil (n : ℕ) : natChars n ≠ [] := by
  unfold natChars
  split
  · simp
  · simp [Nat.digits_ne_nil_iff_ne_zero, *]

theorem natChars_all_digit (n : ℕ) :
    ∀ c ∈ natChars n, c.isDigit = true := by
  intro c hc
  unfold natChars at hc
  split at hc
  · simp at hc; subst hc; rfl
  · simp only [List.mem_map, List.mem_reverse] at hc
    obtain ⟨d, hd, rfl⟩ := hc
    exact digitChar_isDigit (Nat.digits_lt_base (by norm_num) hd)

theorem foldr_digits_eq_ofDigits :
    ∀ ds : List ℕ, ds.foldr (fun d a => 10 * a + d) 0 = Nat.ofDigits 10 ds
  | [] => by simp [Nat.ofDigits]
  | d :: ds => by
    simp only [List.foldr_cons, foldr_digits_eq_ofDigits ds, Nat.ofDigits_cons]
    omega

theorem digitsVal_natChars (n : ℕ) : digitsVal (natChars n) = n := by
  by_cases h0 : n = 0
  · subst h0; rfl
  · unfold natChars digitsVal
    rw [if_neg h0, List.foldl_map, List.foldl_reverse]
    have hlt : ∀ d ∈ Nat.digits 10 n, d < 10 := fun d hd =>
      Nat.digits_lt_base (by norm_num) hd
    have congr1 : ∀ ds : List ℕ, (∀ d ∈ ds, d < 10) →
        ds.foldr (fun x y => 10 * y + ((digitChar x).toNat - 48)) 0 =
          ds.foldr (fun d a => 10 * a + d) 0 := by
      intro ds
      induction ds with
      | nil => intro _; rfl
      | cons d ds ih =>
        intro hds
        simp only [List.foldr_cons]
        rw [ih (fun x hx => hds x (List.mem_cons_of_mem _ hx)),
          digitChar_toNat (hds d (List.mem_cons_self _ _))]
        omega
    rw [congr1 _ hlt, foldr_digits_eq_ofDigits, Nat.ofDigits_digits]

theorem takeWhile_app {α} (p : α → Bool) :
    ∀ (xs ys : List α), (∀ c ∈ xs, p c = true) →
      (∀ c, ys.head? = some c → p c = false) →
      (xs ++ ys).takeWhile p = xs
  | [], ys, _, hy => by
    cases ys with
    | nil => rfl
    | cons y ys => simp [List.takeWhile_cons, hy y rfl]
  | x :: xs, ys, hx, hy => by
    simp only [List.cons_append, List.takeWhile_cons,
      hx x (List.mem_cons_self _ _), if_true]
    rw [takeWhile_app p xs ys (fun c hc => hx c (List.mem_cons_of_mem _ hc)) hy]

theorem dropWhile_app {α} (p : α → Bool) :
    ∀ (xs ys : List α), (∀ c ∈ xs, p c = true) →
      (∀ c, ys.head? = some c → p c = false) →
      (xs ++ ys).dropWhile p = ys
  | [], ys, _, hy => by
    cases ys with
    | nil => rfl
    | cons y ys => simp [List.dropWhile_cons, hy y rfl]
  | x :: xs, ys, hx, hy => by
    simp only [List.cons_append, List.dropWhile_cons,
      hx x (List.mem_cons_self _ _), if_true]
    exact dropWhile_app p xs ys (fun c hc => hx c (List.mem_cons_of_mem _ hc)) hy

theorem tokenize_lpar_cons (cs : List Char) :
    tokenize ('(' :: cs) = Token.lpar :: tokenize cs := by
  simp [tokenize]

theorem tokenize_rpar_cons (cs : List Char) :
    tokenize (')' :: cs) = Token.rpar :: tokenize cs := by
  simp [tokenize]

theorem tokenize_upper_cons (c : Char) (cs : List Char)
    (h : c.isUpper = true) :
    tokenize (c :: cs) =
      Token.elem (String.mk (c :: cs.takeWhile Char.isLower)) ::
        tokenize (cs.dropWhile Char.isLower) := by
  rw [tokenize]
  simp [isUpper_ne_lpar h, isUpper_ne_rpar h, h]

theorem tokenize_digit_cons (c : Char) (cs : List Char)
    (h : c.isDigit = true) :
    tokenize (c :: cs) =
      Token.num (digitsVal (c :: cs.takeWhile Char.isDigit)) ::
        tokenize (cs.dropWhile Char.isDigit) := by
  rw [tokenize]
  simp [isDigit_ne_lpar h, isDigit_ne_rpar h, isDigit_not_upper h, h]

theorem tokenize_numChars (m : Option ℕ) (tail : List Char)
    (ht : sepOk tail) :
    tokenize (numChars m ++ tail) = numTok m ++ tokenize tail := by
  cases m with
  | none => simp [numChars, numTok]
  | some k =>
    obtain ⟨d, ds, hnat⟩ : ∃ d ds, natChars k = d :: ds := by
      cases h : natChars k with
      | nil => exact absurd h (natChars_ne_nil k)
      | cons d ds => exact ⟨d, ds, rfl⟩
    have hall := natChars_all_digit k
    rw [hnat] at hall
    have hd : d.isDigit = true := hall d (List.mem_cons_self _ _)
    have hds : ∀ c ∈ ds, Char.isDigit c = true := fun c hc =>
      hall c (List.mem_cons_of_mem _ hc)
    have htail : ∀ c, tail.head? = some c → Char.isDigit c = false := by
      intro c hc
      cases tail with
      | nil => simp at hc
      | cons t ts =>
        simp only [List.head?_cons, Option.some.injEq] at hc
        subst hc
        exact ht.2
    simp only [numChars, numTok, hnat, List.cons_append]
    rw [tokenize_digit_cons d (ds ++ tail) hd,
      takeWhile_app _ ds tail hds htail, dropWhile_app _ ds tail hds htail,
      ← hnat, digitsVal_natChars]
    simp

theorem tokenize_elemChars (s : String) (hs : symbolOk s = true)
    (rest : List Char)
    (hrest : ∀ c, rest.head? = some c → c.isLower = false) :
    tokenize (s.data ++ rest) = Token.elem s :: tokenize rest := by
  obtain ⟨sdata⟩ := s
  unfold symbolOk at hs
  cases sdata with
  | nil => simp at hs
  | cons c cs =>
    simp only [Bool.and_eq_true, List.all_eq_true] at hs
    simp only [List.cons_append]
    rw [tokenize_upper_cons c (cs ++ rest) hs.1,
      takeWhile_app _ cs rest (fun x hx => hs.2 x hx) hrest,
      dropWhile_app _ cs rest (fun x hx => hs.2 x hx) hrest]

theorem numChars_head_not_lower (m : Option ℕ) (tail : List Char)
    (ht : sepOk tail) :
    ∀ c, (numChars m ++ tail).head? = some c → c.isLower = false := by
  intro c hc
  cases m with
  | none =>
    cases tail with
    | nil => simp [numChars] at hc
    | cons t ts =>
      simp only [numChars, List.nil_append, List.head?_cons,
        Option.some.injEq] at hc
      subst hc
      exact ht.1
  | some k =>
    obtain ⟨d, ds, hnat⟩ : ∃ d ds, natChars k = d :: ds := by
      cases h : natChars k with
      | nil => exact absurd h (natChars_ne_nil k)
      | cons d ds => exact ⟨d, ds, rfl⟩
    have hd : d.isDigit = true := by
      have := natChars_all_digit k
      rw [hnat] at this
      exact this d (List.mem_cons_self _ _)
    simp only [numChars, hnat, List.cons_append, List.head?_cons,
      Option.some.injEq] at hc
    subst hc
    exact isDigit_not_lower hd

theorem listChars_sepOk (l : Flist) (hl : wfList l = true)
    (tail : List Char) (ht : sepOk tail) : sepOk (listChars l ++ tail) := by
  cases l with
  | nil => simpa [listChars] using ht
  | cons f l2 =>
    simp only [wfList, Bool.and_eq_true] at hl
    cases f with
    | atom s m =>
      have hs : symbolOk s = true := by
        have := hl.1
        simp only [wfItem, Bool.and_eq_true] at this
        exact this.1
      obtain ⟨sdata⟩ := s
      unfold symbolOk at hs
      cases sdata with
      | nil => simp at hs
      | cons c cs =>
        simp only [Bool.and_eq_true] at hs
        simp only [listChars, itemChars, List.cons_append, List.append_assoc]
        exact ⟨isUpper_not_lower hs.1, isUpper_not_digit hs.1⟩
    | group g m =>
      simp only [listChars, itemChars, List.cons_append, List.append_assoc]
      exact ⟨rfl, rfl⟩

mutual

theorem tokenize_itemChars (f : Fitem) (tail : List Char)
    (hf : wfItem f = true) (ht : sepOk tail) :
    tokenize (itemChars f ++ tail) = itemTokens f ++ tokenize tail := by
  cases f with
  | atom s m =>
    simp only [wfItem, Bool.and_eq_true] at hf
    simp only [itemChars, itemTokens, List.append_assoc, List.cons_append]
    rw [tokenize_elemChars s hf.1 (numChars m ++ tail)
        (numChars_head_not_lower m tail ht),
      tokenize_numChars m tail ht]
  | group l m =>
    simp only [wfItem] at hf
    simp only [itemChars, itemTokens, List.cons_append, List.append_assoc]
    rw [tokenize_lpar_cons,
      tokenize_listChars l (')' :: (numChars m ++ tail)) hf ⟨rfl, rfl⟩,
      tokenize_rpar_cons, tokenize_numChars m tail ht]

theorem tokenize_listChars (l : Flist) (tail : List Char)
    (hl : wfList l = true) (ht : sepOk tail) :
    tokenize (listChars l ++ tail) = listTokens l ++ tokenize tail := by
  cases l with
  | nil => simp [listChars, listTokens]
  | cons f l2 =>
    simp only [wfList, Bool.and_eq_true] at hl
    simp only [listChars, listTokens, List.append_assoc]
    rw [tokenize_itemChars f (listChars l2 ++ tail) hl.1
        (listChars_sepOk l2 hl.2 tail ht),
      tokenize_listChars l2 tail hl.2 ht]

end

theorem parse_nil (stack : List (Option ℚ)) :
    parse [] stack = sumStack stack := by
  rw [parse]

theorem parse_elem (s : String) (ts : List Token)
    (stack : List (Option ℚ)) (w : Option ℚ)
    (h : atomicWeight s = some w) :
    parse (Token.elem s :: ts) stack = parse ts (w :: stack) := by
  rw [parse, h]

theorem parse_num (n : ℕ) (ts : List Token) (w : ℚ)
    (stack : List (Option ℚ)) :
    parse (Token.num n :: ts) (some w :: stack) =
      parse ts (some (w * n) :: stack) := by
  rw [parse]

theorem sumStack_pushList : ∀ (l : Flist) (stack : List (Option ℚ)),
    sumStack (pushList l stack) =
      (sumStack stack).map (fun x => listWeight l + x)
  | .nil, stack => by
    cases h : sumStack stack <;> simp [pushList, listWeight, h, Except.map]
  | .cons f l2, stack => by
    rw [pushList, sumStack_pushList l2 (some (itemWeight f) :: stack)]
    cases h : sumStack stack <;>
      · simp [sumStack, h, Except.map, listWeight]
        try ring

theorem findEndGo_skip (t : Token) (h1 : t ≠ Token.rpar)
    (h2 : t ≠ Token.lpar) (count : ℤ) (idx : ℕ) (ts : List Token) :
    findEndGo count idx (t :: ts) = findEndGo count (idx + 1) ts := by
  rw [findEndGo, if_neg h1, if_neg h2]

theorem findEndGo_lpar (count : ℤ) (idx : ℕ) (ts : List Token) :
    findEndGo count idx (Token.lpar :: ts) =
      findEndGo (count + 1) (idx + 1) ts := by
  rw [findEndGo]
  simp

theorem findEndGo_rpar (count : ℤ) (idx : ℕ) (ts : List Token)
    (h : ¬(count - 1 = 0)) :
    findEndGo count idx (Token.rpar :: ts) =
      findEndGo (count - 1) (idx + 1) ts := by
  rw [findEndGo]
  simp [h]

theorem findEndGo_rpar_ret (count : ℤ) (idx : ℕ) (ts : List Token)
    (h : count - 1 = 0) :
    findEndGo count idx (Token.rpar :: ts) = some idx := by
  rw [findEndGo]
  simp [h]

theorem findEndGo_numTok (m : Option ℕ) (count : ℤ) (idx : ℕ)
    (ts : List Token) :
    findEndGo count idx (numTok m ++ ts) =
      findEndGo count (idx + (numTok m).length) ts := by
  cases m with
  | none => simp [numTok]
  | some k =>
    simp only [numTok, List.cons_append, List.nil_append, List.length_cons,
      List.length_nil]
    rw [findEndGo_skip (Token.num k) (by simp) (by simp)]

mutual

theorem findEndGo_itemTokens (f : Fitem) (count : ℤ) (idx : ℕ)
    (rest : List Token) (h : 1 ≤ count) :
    findEndGo count idx (itemTokens f ++ rest) =
      findEndGo count (idx + (itemTokens f).length) rest := by
  cases f with
  | atom s m =>
    simp only [itemTokens, List.cons_append, List.length_cons]
    rw [findEndGo_skip (Token.elem s) (by simp) (by simp),
      findEndGo_numTok m]
    congr 1
    omega
  | group l m =>
    simp only [itemTokens, List.cons_append, List.append_assoc,
      List.length_cons, List.length_append]
    rw [findEndGo_lpar,
      findEndGo_listTokens l (count + 1) (idx + 1)
        (Token.rpar :: (numTok m ++ rest)) (by omega),
      findEndGo_rpar _ _ _ (by omega), findEndGo_numTok m]
    have hc : count + 1 - 1 = count := by omega
    rw [hc]
    congr 1
    omega

theorem findEndGo_listTokens (l : Flist) (count : ℤ) (idx : ℕ)
    (rest : List Token) (h : 1 ≤ count) :
    findEndGo count idx (listTokens l ++ rest) =
      findEndGo count (idx + (listTokens l).length) rest := by
  cases l with
  | nil => simp [listTokens]
  | cons f l2 =>
    simp only [listTokens, List.append_assoc, List.length_append]
    rw [findEndGo_itemTokens f count idx (listTokens l2 ++ rest) h,
      findEndGo_listTokens l2 count (idx + (itemTokens f).length) rest h]
    congr 1
    omega

end

theorem knownWeight_elim (s : String) (h : knownWeight s = true) :
    ∃ w, atomicWeight s = some (some w) ∧ wOf s = w := by
  unfold knownWeight at h
  cases haw : atomicWeight s with
  | none => rw [haw] at h; simp at h
  | some o =>
    cases o with
    | none => rw [haw] at h; simp at h
    | some w => exact ⟨w, rfl, by simp [wOf, haw]⟩

theorem parse_lpar (ts : List Token) (stack : List (Option ℚ)) (e : ℕ)
    (w : ℚ) (hfe : findEnd (Token.lpar :: ts) = some e)
    (hinner : parse (ts.take (e - 1)) [] = Except.ok w) :
    parse (Token.lpar :: ts) stack = parse (ts.drop e) (some w :: stack) := by
  rw [parse, hfe]
  simp only [hinner]

mutual

theorem parse_itemTokens (f : Fitem) (rest : List Token)
    (stack : List (Option ℚ)) (hf : wfItem f = true) :
    parse (itemTokens f ++ rest) stack =
      parse rest (some (itemWeight f) :: stack) := by
  cases f with
  | atom s m =>
    simp only [wfItem, Bool.and_eq_true] at hf
    obtain ⟨w, haw, hwof⟩ := knownWeight_elim s hf.2
    simp only [itemTokens, List.cons_append]
    rw [parse_elem s (numTok m ++ rest) stack (some w) haw]
    cases m with
    | none =>
      simp only [numTok, List.nil_append, itemWeight, multNat, hwof,
        Nat.cast_one, mul_one]
    | some k =>
      simp only [numTok, List.cons_append, List.nil_append]
      rw [parse_num k rest w stack]
      simp only [itemWeight, multNat, hwof]
  | group l m =>
    simp only [wfItem] at hf
    have hassoc : itemTokens (Fitem.group l m) ++ rest =
        Token.lpar :: (listTokens l ++ (Token.rpar :: (numTok m ++ rest))) := by
      simp [itemTokens]
    rw [hassoc]
    have hfe : findEnd (Token.lpar ::
        (listTokens l ++ (Token.rpar :: (numTok m ++ rest)))) =
        some (1 + (listTokens l).length) := by
      unfold findEnd
      rw [findEndGo_lpar,
        findEndGo_listTokens l (0 + 1) (0 + 1) _ (by omega),
        findEndGo_rpar_ret _ _ _ (by omega)]
    have hinner : parse ((listTokens l ++
        (Token.rpar :: (numTok m ++ rest))).take
          (1 + (listTokens l).length - 1)) [] = Except.ok (listWeight l) := by
      rw [show 1 + (listTokens l).length - 1 = (listTokens l).length by omega,
        List.take_left]
      have h1 := parse_listTokens l [] [] hf
      rw [List.append_nil] at h1
      rw [h1, parse_nil, sumStack_pushList l []]
      simp [sumStack, Except.map]
    rw [parse_lpar _ stack _ _ hfe hinner]
    have hdrop : (listTokens l ++ (Token.rpar :: (numTok m ++ rest))).drop
        (1 + (listTokens l).length) = numTok m ++ rest := by
      rw [show listTokens l ++ (Token.rpar :: (numTok m ++ rest)) =
          (listTokens l ++ [Token.rpar]) ++ (numTok m ++ rest) by simp]
      rw [show 1 + (listTokens l).length =
          (listTokens l ++ [Token.rpar]).length by
        simp [Nat.add_comm]]
      exact List.drop_left _ _
    rw [hdrop]
    cases m with
    | none =>
      simp only [numTok, List.nil_append, itemWeight, multNat, Nat.cast_one,
        mul_one]
    | some k =>
      simp only [numTok, List.cons_append, List.nil_append]
      rw [parse_num k rest (listWeight l) stack]
      simp only [itemWeight, multNat]

theorem parse_listTokens (l : Flist) (rest : List Token)
    (stack : List (Option ℚ)) (hl : wfList l = true) :
    parse (listTokens l ++ rest) stack = parse rest (pushList l stack) := by
  cases l with
  | nil => simp [listTokens, pushList]
  | cons f l2 =>
    simp only [wfList, Bool.and_eq_true] at hl
    simp only [listTokens, List.append_assoc, pushList]
    rw [parse_itemTokens f (listTokens l2 ++ rest) stack hl.1,
      parse_listTokens l2 rest (some (itemWeight f) :: stack) hl.2]

end

/-- `mw` on the rendered string of a well-formed formula returns its
compositional weight. -/
theorem mw_render (l : Flist) (hl : wfList l = true) :
    mw (render l) = Except.ok (listWeight l) := by
  unfold mw render
  have hdata : (String.mk (listChars l)).data = listChars l := rfl
  rw [hdata]
  have h1 : tokenize (listChars l) = listTokens l := by
    have h := tokenize_listChars l [] hl trivial
    have h0 : tokenize ([] : List Char) = [] := by simp [tokenize]
    rw [h0] at h
    simp only [List.append_nil] at h
    exact h
  rw [h1]
  have h2 := parse_listTokens l [] [] hl
  rw [List.append_nil] at h2
  rw [h2, parse_nil, sumStack_pushList l []]
  simp [sumStack, Except.map]

theorem atomsWeight_append (A B : List (String × ℕ)) :
    atomsWeight (A ++ B) = atomsWeight A + atomsWeight B := by
  simp [atomsWeight]

theorem atomsWeight_map_mul (A : List (String × ℕ)) (k : ℕ) :
    atomsWeight (A.map (fun p => (p.1, p.2 * k))) = atomsWeight A * k := by
  induction A with
  | nil => simp [atomsWeight]
  | cons p A ih =>
    simp only [List.map_cons, atomsWeight, List.sum_cons] at *
    rw [ih]
    push_cast
    ring

mutual

theorem itemWeight_atoms (f : Fitem) :
    itemWeight f = atomsWeight (itemAtoms f) := by
  cases f with
  | atom s m =>
    simp [itemWeight, itemAtoms, atomsWeight]
    ring
  | group l m =>
    rw [itemWeight, itemAtoms, atomsWeight_map_mul,
      ← listWeight_atoms l]

theorem listWeight_atoms (l : Flist) :
    listWeight l = atomsWeight (listAtoms l) := by
  cases l with
  | nil => simp [listWeight, listAtoms, atomsWeight]
  | cons f l2 =>
    rw [listWeight, listAtoms, atomsWeight_append,
      itemWeight_atoms f, listWeight_atoms l2]

end

theorem parse_num_nil (n : ℕ) (ts : List Token) :
    parse (Token.num n :: ts) [] = Except.error PyErr.indexError := by
  simp [parse]

theorem parse_num_none (n : ℕ) (ts : List Token)
    (rest : List (Option ℚ)) :
    parse (Token.num n :: ts) (none :: rest) =
      Except.error PyErr.typeError := by
  simp [parse]

theorem parse_rpar (ts : List Token) (stack : List (Option ℚ)) :
    parse (Token.rpar :: ts) stack = parse ts stack := by
  rw [parse]

theorem parse_elem_unknown (s : String) (ts : List Token)
    (stack : List (Option ℚ)) (h : atomicWeight s = none) :
    parse (Token.elem s :: ts) stack = parse ts stack := by
  rw [parse, h]

theorem parse_lpar_none (ts : List Token) (stack : List (Option ℚ))
    (h : findEnd (Token.lpar :: ts) = none) :
    parse (Token.lpar :: ts) stack = Except.error PyErr.valueError := by
  rw [parse, h]

theorem parse_lpar_err (ts : List Token) (stack : List (Option ℚ))
    (e : ℕ) (err : PyErr) (hfe : findEnd (Token.lpar :: ts) = some e)
    (hin : parse (ts.take (e - 1)) [] = Except.error err) :
    parse (Token.lpar :: ts) stack = Except.error err := by
  rw [parse, hfe]
  simp [hin]

/-- Specification of a successful `_find_end` scan: the returned index
points just past a segment over which the saturating depth fold descends
by exactly the entry count. -/
theorem findEndGo_spec : ∀ (ts : List Token) (c : ℤ) (idx e : ℕ),
    1 ≤ c → findEndGo c idx ts = some e →
    ∃ j, e = idx + j ∧ j < ts.length ∧
      ∀ d : ℕ, c ≤ (d : ℤ) →
        (ts.take (j + 1)).foldl stepCount d = d - c.toNat
  | [], c, idx, e, hc, h => by simp [findEndGo] at h
  | t :: ts, c, idx, e, hc, h => by
    by_cases ht : t = Token.rpar
    · subst ht
      rw [findEndGo, if_pos rfl] at h
      by_cases hzero : c - 1 = 0
      · rw [if_pos hzero] at h
        have he : e = idx := by
          simpa using h.symm
        refine ⟨0, by omega, by simp, ?_⟩
        intro d hd
        have hc1 : c = 1 := by omega
        simp [stepCount, hc1]
      · rw [if_neg hzero] at h
        obtain ⟨j, hej, hjlt, hfold⟩ :=
          findEndGo_spec ts (c - 1) (idx + 1) e (by omega) h
        refine ⟨j + 1, by omega, by simp only [List.length_cons]; omega, ?_⟩
        intro d hd
        have hd1 : 1 ≤ d := by omega
        have hstep : stepCount d Token.rpar = d - 1 := by simp [stepCount]
        simp only [List.take_succ_cons, List.foldl_cons, hstep]
        rw [hfold (d - 1) (by omega)]
        omega
    · by_cases ht2 : t = Token.lpar
      · subst ht2
        rw [findEndGo, if_neg (by simp), if_pos rfl] at h
        obtain ⟨j, hej, hjlt, hfold⟩ :=
          findEndGo_spec ts (c + 1) (idx + 1) e (by omega) h
        refine ⟨j + 1, by omega, by simp only [List.length_cons]; omega, ?_⟩
        intro d hd
        have hstep : stepCount d Token.lpar = d + 1 := by simp [stepCount]
        simp only [List.take_succ_cons, List.foldl_cons, hstep]
        rw [hfold (d + 1) (by push_cast; omega)]
        omega
      · rw [findEndGo, if_neg ht, if_neg ht2] at h
        obtain ⟨j, hej, hjlt, hfold⟩ :=
          findEndGo_spec ts c (idx + 1) e hc h
        refine ⟨j + 1, by omega, by simp only [List.length_cons]; omega, ?_⟩
        intro d hd
        have hstep : stepCount d t = d := by simp [stepCount, ht, ht2]
        simp only [List.take_succ_cons, List.foldl_cons, hstep]
        exact hfold d hd

/-- A successful `_find_end` on an open-parenthesis-headed token list
closes that parenthesis: the unclosed-open count of the whole list equals
that of the part after the matching close. -/
theorem openRem_findEnd (ts : List Token) (e : ℕ)
    (h : findEnd (Token.lpar :: ts) = some e) :
    openRem (Token.lpar :: ts) = openRem (ts.drop e) := by
  unfold findEnd at h
  rw [findEndGo_lpar] at h
  obtain ⟨j, hej, hjlt, hfold⟩ :=
    findEndGo_spec ts (0 + 1) (0 + 1) e (by omega) h
  unfold openRem
  have hstep : stepCount 0 Token.lpar = 1 := by simp [stepCount]
  rw [List.foldl_cons, hstep]
  conv_lhs => rw [← List.take_append_drop (j + 1) ts]
  rw [List.foldl_append, hfold 1 (by norm_num)]
  have he : e = j + 1 := by omega
  rw [he]
  norm_num

/-- Unclosed open parentheses always abort `_parse` with an error (usually
the unmatched-parentheses `ValueError`, but an `IndexError`/`TypeError`
raised while evaluating an inner group comes first). -/
theorem parse_err_of_openRem :
    ∀ (n : ℕ) (ts : List Token) (stack : List (Option ℚ)),
      ts.length ≤ n → 0 < openRem ts →
      ∃ err, parse ts stack = Except.error err := by
  intro n
  induction n with
  | zero =>
    intro ts stack hlen hrem
    have hts : ts = [] := List.length_eq_zero.mp (Nat.le_zero.mp hlen)
    subst hts
    simp [openRem] at hrem
  | succ n ih =>
    intro ts stack hlen hrem
    cases ts with
    | nil => simp [openRem] at hrem
    | cons t ts2 =>
      have hlen2 : ts2.length ≤ n := by
        simp only [List.length_cons] at hlen
        omega
      cases t with
      | elem s =>
        have hrem2 : 0 < openRem ts2 := by
          simpa [openRem, stepCount] using hrem
        cases haw : atomicWeight s with
        | some w =>
          rw [parse_elem s ts2 stack w haw]
          exact ih ts2 (w :: stack) hlen2 hrem2
        | none =>
          rw [parse_elem_unknown s ts2 stack haw]
          exact ih ts2 stack hlen2 hrem2
      | num k =>
        have hrem2 : 0 < openRem ts2 := by
          simpa [openRem, stepCount] using hrem
        cases stack with
        | nil => exact ⟨PyErr.indexError, parse_num_nil k ts2⟩
        | cons o rest =>
          cases o with
          | none => exact ⟨PyErr.typeError, parse_num_none k ts2 rest⟩
          | some w =>
            rw [parse_num k ts2 w rest]
            exact ih ts2 (some (w * k) :: rest) hlen2 hrem2
      | rpar =>
        have hrem2 : 0 < openRem ts2 := by
          simpa [openRem, stepCount] using hrem
        rw [parse_rpar]
        exact ih ts2 stack hlen2 hrem2
      | lpar =>
        cases hfe : findEnd (Token.lpar :: ts2) with
        | none => exact ⟨PyErr.valueError, parse_lpar_none ts2 stack hfe⟩
        | some e =>
          cases hin : parse (ts2.take (e - 1)) [] with
          | error err => exact ⟨err, parse_lpar_err ts2 stack e err hfe hin⟩
          | ok w =>
            rw [parse_lpar ts2 stack e w hfe hin]
            refine ih (ts2.drop e) (some w :: stack) ?_ ?_
            · have hdl : (ts2.drop e).length = ts2.length - e :=
                List.length_drop _ _
              omega
            · rw [← openRem_findEnd ts2 e hfe]
              exact hrem

theorem lookupCount_map_update_ne (k : String) (v : ℚ) (k' : String)
    (hk : k' ≠ k) :
    ∀ c : List (String × ℚ),
      lookupCount (c.map (fun p => if p.1 == k then (p.1, p.2 + v) else p))
        k' = lookupCount c k'
  | [] => rfl
  | p :: rest => by
    have ih := lookupCount_map_update_ne k v k' hk rest
    simp only [List.map_cons]
    by_cases hpk : p.1 = k
    · have hc : (p.1 == k) = true := by simpa using hpk
      have hck' : ¬((p.1 == k') = true) := by
        simp only [beq_iff_eq]
        rw [hpk]
        exact fun h => hk h.symm
      rw [if_pos hc]
      simp only [lookupCount]
      rw [if_neg hck', if_neg hck', ih]
    · have hc : ¬((p.1 == k) = true) := by simpa using hpk
      rw [if_neg hc]
      simp only [lookupCount]
      by_cases hpk2 : (p.1 == k') = true
      · rw [if_pos hpk2, if_pos hpk2]
      · rw [if_neg hpk2, if_neg hpk2, ih]

theorem lookupCount_map_update_eq (k : String) (v : ℚ) :
    ∀ c : List (String × ℚ), c.any (fun p => p.1 == k) = true →
      lookupCount (c.map (fun p => if p.1 == k then (p.1, p.2 + v) else p))
        k = lookupCount c k + v
  | [], hmem => by simp at hmem
  | p :: rest, hmem => by
    simp only [List.map_cons]
    by_cases hpk : (p.1 == k) = true
    · rw [if_pos hpk]
      simp only [lookupCount]
      rw [if_pos hpk, if_pos hpk]
    · have hrest : rest.any (fun p => p.1 == k) = true := by
        simp only [List.any_cons, Bool.or_eq_true] at hmem
        rcases hmem with h1 | h2
        · exact absurd h1 hpk
        · exact h2
      have ih := lookupCount_map_update_eq k v rest hrest
      rw [if_neg hpk]
      simp only [lookupCount]
      rw [if_neg hpk, if_neg hpk, ih]

theorem lookupCount_append_new (k : String) (v : ℚ) (k' : String) :
    ∀ c : List (String × ℚ), c.any (fun p => p.1 == k) = false →
      lookupCount (c ++ [(k, v)]) k' =
        lookupCount c k' + (if k' = k then v else 0)
  | [], _ => by
    by_cases hk : k' = k
    · simp [lookupCount, hk]
    · have hk2 : ¬((k == k') = true) := by
        simp only [beq_iff_eq]
        exact fun h => hk h.symm
      simp only [List.nil_append, lookupCount]
      rw [if_neg hk2, if_neg hk]
      simp
  | p :: rest, hnone => by
    simp only [List.any_cons, Bool.or_eq_false_iff] at hnone
    have ih := lookupCount_append_new k v k' rest hnone.2
    simp only [List.cons_append, lookupCount]
    by_cases hpk : (p.1 == k') = true
    · rw [if_pos hpk, if_pos hpk]
      have hkk : ¬(k' = k) := by
        intro hkk
        have hp1 : p.1 = k' := by simpa using hpk
        rw [hkk] at hp1
        rw [hp1] at hnone
        simp at hnone
      rw [if_neg hkk]
      simp
    · rw [if_neg hpk, if_neg hpk]
      simp only [List.append_eq]
      exact ih

theorem counterUpdate_lookupCount (c : List (String × ℚ)) (k : String)
    (v : ℚ) (k' : String) :
    lookupCount (counterUpdate c k v) k' =
      lookupCount c k' + (if k' = k then v else 0) := by
  unfold counterUpdate
  by_cases hmem : c.any (fun p => p.1 == k) = true
  · rw [if_pos hmem]
    by_cases hk : k' = k
    · rw [if_pos hk, hk]
      exact lookupCount_map_update_eq k v c hmem
    · rw [if_neg hk, lookupCount_map_update_ne k v k' hk c]
      simp
  · rw [if_neg hmem]
    exact lookupCount_append_new k v k' c (Bool.eq_false_iff.mpr hmem)

theorem foldl_counterUpdate (mol : ℚ) (el : String) :
    ∀ (L : List (String × ℚ)) (counter : List (String × ℚ)),
      lookupCount (L.foldl
          (fun acc p => counterUpdate acc p.1 (p.2 * mol)) counter) el =
        lookupCount counter el +
          ((L.map (fun p => if p.1 == el then p.2 else 0)).sum) * mol
  | [], counter => by simp
  | p :: L, counter => by
    rw [List.foldl_cons, foldl_counterUpdate mol el L _]
    rw [counterUpdate_lookupCount counter p.1 (p.2 * mol) el]
    by_cases h : (p.1 == el) = true
    · have h2 : el = p.1 := (by simpa using h : p.1 = el).symm
      rw [List.map_cons, if_pos h, if_pos h2, List.sum_cons]
      ring
    · have h2 : ¬(el = p.1) := fun hx => h (by simpa using hx.symm)
      rw [List.map_cons, if_neg h, if_neg h2, List.sum_cons]
      ring

theorem itemCounterUpdates_lookupCount (counter : List (String × ℚ))
    (sp : String) (mol : ℚ) (el : String) :
    lookupCount (itemCounterUpdates counter sp mol) el =
      lookupCount counter el + flatCount sp el * mol := by
  unfold itemCounterUpdates flatCount
  exact foldl_counterUpdate mol el (flatScan sp.data) counter

theorem eqCounter_lookupCount (el : String) :
    ∀ (items : List (String × ℚ × ℚ × ℚ)),
      lookupCount (eqCounter items) el =
        (items.map (fun it => flatCount it.1 el * it.2.1)).sum := by
  have general : ∀ (items : List (String × ℚ × ℚ × ℚ))
      (counter : List (String × ℚ)),
      lookupCount (items.foldl
          (fun acc it => itemCounterUpdates acc it.1 it.2.1) counter) el =
        lookupCount counter el +
          (items.map (fun it => flatCount it.1 el * it.2.1)).sum := by
    intro items
    induction items with
    | nil => intro counter; simp
    | cons it items ih =>
      intro counter
      rw [List.foldl_cons, ih, itemCounterUpdates_lookupCount]
      simp [add_assoc]
  intro items
  have h := general items []
  simpa [eqCounter, lookupCount] using h

theorem sum_map_div (l : List ℚ) (s : ℚ) :
    (l.map (fun m => m / s)).sum = l.sum / s := by
  induction l with
  | nil => simp
  | cons a l ih => simp [ih, div_add_div_same]

theorem equationProperties_elim (names : Option (List (String × String)))
    (comps : List (List Char)) (props : EqProps)
    (h : equationProperties names comps = some props) :
    ∃ items, eqItems names comps = some items ∧
      props.species = items.map (fun it => it.1) ∧
      props.moles = items.map (fun it => it.2.1) ∧
      props.molwt = items.map (fun it => it.2.2.1) ∧
      props.mass = items.map (fun it => it.2.2.2) ∧
      props.elementCounter = eqCounter items ∧
      props.sumMoles = (items.map (fun it => it.2.1)).sum ∧
      props.sumMass = (items.map (fun it => it.2.2.2)).sum ∧
      props.molFracs = (items.map (fun it => it.2.1)).map
        (fun m => m / (items.map (fun it => it.2.1)).sum) ∧
      props.massFracs = (items.map (fun it => it.2.2.2)).map
        (fun m => m / (items.map (fun it => it.2.2.2)).sum) := by
  unfold equationProperties at h
  cases hi : eqItems names comps with
  | none => rw [hi] at h; simp at h
  | some items =>
    rw [hi] at h
    simp only [Option.map_some'] at h
    injection h with h2
    subst h2
    exact ⟨items, rfl, rfl, rfl, rfl, rfl, rfl, rfl, rfl, rfl, rfl⟩

/-- Per-item specification of a successful `_equation_properties` pass:
each item record stores the `names`-resolved species, the parsed
coefficient, the molecular weight `mw` computes for the resolved species,
and `coefficient × weight` as its mass. -/
theorem eqItems_spec (names : Option (List (String × String))) :
    ∀ (comps : List (List Char)) (items : List (String × ℚ × ℚ × ℚ)),
      eqItems names comps = some items →
      List.Forall₂ (fun (c : List Char) (it : String × ℚ × ℚ × ℚ) =>
        ∃ mol sp0, itemMoleSpecies c = some (mol, sp0) ∧
          it.1 = resolveName names sp0 ∧ it.2.1 = mol ∧
          mw it.1 = Except.ok it.2.2.1 ∧ it.2.2.2 = mol * it.2.2.1)
        comps items
  | [], items, h => by
    simp only [eqItems] at h
    injection h with h
    subst h
    exact List.Forall₂.nil
  | c :: rest, items, h => by
    rw [eqItems] at h
    cases him : itemMoleSpecies c with
    | none => rw [him] at h; simp at h
    | some ms =>
      obtain ⟨mol, sp0⟩ := ms
      rw [him] at h
      simp only at h
      cases hmw : mw (resolveName names sp0) with
      | error e => rw [hmw] at h; simp at h
      | ok w =>
        rw [hmw] at h
        simp only at h
        cases htail : eqItems names rest with
        | none => rw [htail] at h; simp at h
        | some tail =>
          rw [htail] at h
          simp only at h
          injection h with h
          subst h
          refine List.Forall₂.cons ⟨mol, sp0, him, rfl, rfl, hmw, rfl⟩ ?_
          exact eqItems_spec names rest tail htail

theorem listIndex_none_iff (s : String) :
    ∀ l : List String, listIndex s l = none ↔ s ∉ l
  | [] => by simp [listIndex]
  | x :: xs => by
    simp only [listIndex]
    by_cases hx : (x == s) = true
    · rw [if_pos hx]
      have : s ∈ x :: xs := by
        have hxs : x = s := by simpa using hx
        rw [hxs]
        exact List.mem_cons_self _ _
      simp [this]
    · rw [if_neg hx]
      have hxs : ¬(s = x) := fun h => hx (by simpa using h.symm)
      simp [Option.map_eq_none', listIndex_none_iff s xs, hxs]

theorem listIndex_lt (s : String) :
    ∀ (l : List String) (i : ℕ), listIndex s l = some i → i < l.length
  | [], i, h => by simp [listIndex] at h
  | x :: xs, i, h => by
    simp only [listIndex] at h
    by_cases hx : (x == s) = true
    · rw [if_pos hx] at h
      injection h with h
      subst h
      simp
    · rw [if_neg hx] at h
      rw [Option.map_eq_some'] at h
      obtain ⟨j, hj, hij⟩ := h
      subst hij
      have := listIndex_lt s xs j hj
      simp only [List.length_cons]
      omega

theorem propsLookup_isSome (props : EqProps)
    (hlen1 : props.moles.length = props.species.length)
    (hlen2 : props.molwt.length = props.species.length)
    (hlen3 : props.mass.length = props.species.length)
    (hlen4 : props.molFracs.length = props.species.length)
    (hlen5 : props.massFracs.length = props.species.length)
    (s : String) :
    (propsLookup props s).isSome = true ↔ s ∈ props.species := by
  unfold propsLookup
  cases hli : listIndex s props.species with
  | none =>
    have hmem := (listIndex_none_iff s props.species).mp hli
    simp [hmem]
  | some i =>
    have hlt := listIndex_lt s props.species i hli
    have hmem : s ∈ props.species := by
      by_contra hc
      rw [(listIndex_none_iff s props.species).mpr hc] at hli
      exact Option.noConfusion hli
    obtain ⟨a1, h1⟩ : ∃ a, props.moles.get? i = some a := by
      cases hg : props.moles.get? i with
      | none => rw [List.get?_eq_none] at hg; omega
      | some a => exact ⟨a, rfl⟩
    obtain ⟨a2, h2⟩ : ∃ a, props.molwt.get? i = some a := by
      cases hg : props.molwt.get? i with
      | none => rw [List.get?_eq_none] at hg; omega
      | some a => exact ⟨a, rfl⟩
    obtain ⟨a3, h3⟩ : ∃ a, props.mass.get? i = some a := by
      cases hg : props.mass.get? i with
      | none => rw [List.get?_eq_none] at hg; omega
      | some a => exact ⟨a, rfl⟩
    obtain ⟨a4, h4⟩ : ∃ a, props.molFracs.get? i = some a := by
      cases hg : props.molFracs.get? i with
      | none => rw [List.get?_eq_none] at hg; omega
      | some a => exact ⟨a, rfl⟩
    obtain ⟨a5, h5⟩ : ∃ a, props.massFracs.get? i = some a := by
      cases hg : props.massFracs.get? i with
      | none => rw [List.get?_eq_none] at hg; omega
      | some a => exact ⟨a, rfl⟩
    simp only [List.get?_eq_getElem?] at h1 h2 h3 h4 h5
    simp [h1, h2, h3, h4, h5, hmem]

theorem aw_H : atomicWeight "H" = some (some 1.008) := rfl

theorem aw_C : atomicWeight "C" = some (some 12.011) := rfl

theorem aw_N : atomicWeight "N" = some (some 14.007) := rfl

theorem aw_O : atomicWeight "O" = some (some 15.999) := rfl

theorem aw_S : atomicWeight "S" = some (some 32.06) := rfl

theorem aw_Cl : atomicWeight "Cl" = some (some 35.45) := rfl

theorem aw_Na : atomicWeight "Na" = some (some 22.990) := rfl

theorem aw_Ca : atomicWeight "Ca" = some (some 40.078) := rfl

theorem aw_Xx : atomicWeight "Xx" = none := by decide

/-- C1: for every well-formed formula (balanced parentheses by
construction, every element symbol present in the atomic-weight table
with a known weight), `mw` of the rendered formula string returns the sum
over all atoms — multiplicities fully expanded through arbitrarily nested
parenthesized groups — of the atom's atomic weight.  `mw` is a pure
function of its argument, hence deterministic and side-effect free. -/
theorem C1_mw_formula_correct (l : Flist) (hl : wfList l = true) :
    mw (render l) = Except.ok (atomsWeight (listAtoms l)) := by
  rw [mw_render l hl, listWeight_atoms l]

theorem C1_witness :
    wfList astNH4SO4 = true ∧ render astNH4SO4 = "(NH4)2SO4" ∧
      mw (render astNH4SO4) = Except.ok (atomsWeight (listAtoms astNH4SO4)) ∧
      atomsWeight (listAtoms astNH4SO4) = 132.134 := by
  have hwf : wfList astNH4SO4 = true := by
    simp [astNH4SO4, wfList, wfItem, symbolOk, knownWeight, aw_N, aw_H,
      aw_S, aw_O]
  have hr : render astNH4SO4 = "(NH4)2SO4" := by
    norm_num [render, astNH4SO4, listChars, itemChars, numChars, natChars,
      Nat.digits_def', digitChar]
  exact ⟨hwf, hr, C1_mw_formula_correct astNH4SO4 hwf, by
    norm_num [atomsWeight, listAtoms, itemAtoms, astNH4SO4, multNat, wOf,
      aw_N, aw_H, aw_S, aw_O]⟩

/-- C3 counterexample: `mw "Xx"` does not raise an unknown-element error;
the unknown token is silently skipped and `mw` returns `0.0`. -/
theorem C3_counterexample : mw "Xx" = Except.ok 0 := by
  simp [mw, tokenize, parse, sumStack, aw_Xx]

/-- C3 (amended): an element-symbol token absent from the atomic-weight
table is silently skipped by `_parse` — it contributes nothing and no
error is raised; in particular `mw "Xx"` returns `0.0`. -/
theorem C3_amended :
    (∀ (s : String) (ts : List Token) (stack : List (Option ℚ)),
      atomicWeight s = none →
      parse (Token.elem s :: ts) stack = parse ts stack) ∧
    mw "Xx" = Except.ok 0 := by
  refine ⟨fun s ts stack h => parse_elem_unknown s ts stack h, ?_⟩
  simp [mw, tokenize, parse, sumStack, aw_Xx]

theorem C3_witness :
    parse [Token.elem "Xx"] [] = parse [] [] :=
  C3_amended.1 "Xx" [] [] (by decide)

/-- C4 counterexample: a close parenthesis with no matching open does
not raise — the stray `)` token is silently skipped and a weight is
returned: `mw "CO2)"` succeeds. -/
theorem C4_counterexample : mw "CO2)" = Except.ok 44.009 := by
  simp [mw, tokenize, parse, sumStack, aw_C, aw_O, digitsVal, Except.map]
  norm_num

/-- C4 (amended): a formula string in which some open parenthesis has no
matching close makes `mw` raise an error before any weight is returned
(the unmatched-parentheses `ValueError` — as on `mw "(CO2"` — unless an
`IndexError`/`TypeError` from evaluating an inner group fires first); a
close parenthesis with no matching open is silently ignored. -/
theorem C4_amended :
    (∀ s : String, 0 < openRem (tokenize s.data) →
      ∃ err, mw s = Except.error err) ∧
    mw "(CO2" = Except.error PyErr.valueError := by
  constructor
  · intro s h
    exact parse_err_of_openRem (tokenize s.data).length (tokenize s.data) []
      (le_refl _) h
  · simp [mw, tokenize, parse, findEnd, findEndGo, digitsVal]

theorem C4_witness : ∃ err, mw "(CO2" = Except.error err :=
  C4_amended.1 "(CO2" (by simp [tokenize, openRem, stepCount, digitsVal])

/-- C5: the parenthesis expansion law — for a well-formed sub-formula
`X` and positive integer `n`, `mw "(X)n"` equals `n × mw "X"` — and its
composition through nesting: `mw "(((H2O)4)3)8"` equals
`8 × 3 × 4 × mw "H2O"`. -/
theorem C5_paren_expansion :
    (∀ (X : Flist) (n : ℕ), wfList X = true → 0 < n →
      mw (render (Flist.cons (Fitem.group X (some n)) Flist.nil)) =
        (mw (render X)).map (fun w => (n : ℚ) * w)) ∧
    mw "(((H2O)4)3)8" = (mw "H2O").map (fun w => 8 * 3 * 4 * w) := by
  constructor
  · intro X n hX _hn
    have h1 : wfList (Flist.cons (Fitem.group X (some n)) Flist.nil) =
        true := by
      simp [wfList, wfItem, hX]
    rw [mw_render _ h1, mw_render X hX]
    simp [listWeight, itemWeight, multNat, Except.map, mul_comm]
  · simp [mw, tokenize, parse, findEnd, findEndGo, sumStack, aw_H, aw_O,
      digitsVal, Except.map]
    norm_num

theorem C5_witness :
    mw (render (Flist.cons (Fitem.group astH2O (some 2)) Flist.nil)) =
      (mw (render astH2O)).map (fun w => (2 : ℚ) * w) :=
  C5_paren_expansion.1 astH2O 2
    (by simp [astH2O, wfList, wfItem, symbolOk, knownWeight, aw_H, aw_O])
    (by norm_num)

/-- C9 counterexample: characters outside every token class are not
equivalent to deletion — they still terminate the preceding token.
Deleting the space of `"H2 3"` merges two digit runs: `mw "H2 3"` is
`1.008 × 2 × 3 = 6.048` while `mw "H23"` is `1.008 × 23 = 23.184`. -/
theorem C9_counterexample :
    mw "H2 3" ≠ mw "H23" ∧ mw "H2 3" = Except.ok 6.048 ∧
      mw "H23" = Except.ok 23.184 := by
  have h1 : mw "H2 3" = Except.ok 6.048 := by
    simp [mw, tokenize, parse, sumStack, aw_H, digitsVal, Except.map]
    norm_num
  have h2 : mw "H23" = Except.ok 23.184 := by
    simp [mw, tokenize, parse, sumStack, aw_H, digitsVal, Except.map]
    norm_num
  refine ⟨?_, h1, h2⟩
  rw [h1, h2]
  intro h
  injection h with h
  norm_num at h

/-- C9 (amended): a character matching no token class produces no token
when the scanner reaches it (but it still separates tokens, so deleting
it can change the result); a string with no uppercase letter, digit or
parenthesis — in particular the empty string — produces no tokens and
`mw` returns `0.0` without error. -/
theorem C9_amended :
    (∀ (c : Char) (cs : List Char),
      c ≠ '(' → c ≠ ')' → c.isUpper = false → c.isDigit = false →
      tokenize (c :: cs) = tokenize cs) ∧
    (∀ s : String, (∀ c ∈ s.data, c ≠ '(' ∧ c ≠ ')' ∧
      c.isUpper = false ∧ c.isDigit = false) → mw s = Except.ok 0) ∧
    mw "" = Except.ok 0 := by
  have hskip : ∀ (c : Char) (cs : List Char), c ≠ '(' → c ≠ ')' →
      c.isUpper = false → c.isDigit = false →
      tokenize (c :: cs) = tokenize cs := by
    intro c cs h1 h2 h3 h4
    rw [tokenize]
    simp [h1, h2, h3, h4]
  have hall : ∀ cs : List Char,
      (∀ c ∈ cs, c ≠ '(' ∧ c ≠ ')' ∧ c.isUpper = false ∧
        c.isDigit = false) → tokenize cs = [] := by
    intro cs
    induction cs with
    | nil => intro _; simp [tokenize]
    | cons c cs ih =>
      intro h
      obtain ⟨h1, h2, h3, h4⟩ := h c (List.mem_cons_self _ _)
      rw [hskip c cs h1 h2 h3 h4]
      exact ih (fun d hd => h d (List.mem_cons_of_mem _ hd))
  refine ⟨hskip, ?_, ?_⟩
  · intro s h
    unfold mw
    rw [hall s.data h, parse_nil]
    rfl
  · simp [mw, tokenize, parse, sumStack]

theorem C9_witness : mw "abc -> xyz" = Except.ok 0 :=
  C9_amended.2.1 "abc -> xyz" (by decide)

/-- C10: a formula whose first token is a digit run makes `_parse` hit
`stack[-1]` on the empty accumulator stack — an `IndexError` — as on
`mw "2HCl"`; the same happens to a digit run directly after an opening
parenthesis, whose group starts a fresh empty stack, as on `mw "(2H)"`. -/
theorem C10_leading_digit_index_error :
    (∀ (s : String) (n : ℕ) (rest : List Token),
      tokenize s.data = Token.num n :: rest →
      mw s = Except.error PyErr.indexError) ∧
    mw "2HCl" = Except.error PyErr.indexError ∧
    mw "(2H)" = Except.error PyErr.indexError := by
  refine ⟨?_, ?_, ?_⟩
  · intro s n rest h
    unfold mw
    rw [h, parse_num_nil]
  · simp [mw, tokenize, parse, sumStack, aw_H, aw_Cl, digitsVal]
  · simp [mw, tokenize, parse, findEnd, findEndGo, sumStack, aw_H,
      digitsVal]

theorem C10_witness : mw "2HCl" = Except.error PyErr.indexError :=
  C10_leading_digit_index_error.1 "2HCl" 2 [Token.elem "H", Token.elem "Cl"]
    (by simp [tokenize, digitsVal])

theorem forall₂_mem_right {α β : Type} {R : α → β → Prop} :
    ∀ {l1 : List α} {l2 : List β}, List.Forall₂ R l1 l2 →
      ∀ b ∈ l2, ∃ a, R a b := by
  intro l1 l2 h
  induction h with
  | nil => intro b hb; simp at hb
  | cons hr _ ih =>
    intro b hb
    rcases List.mem_cons.mp hb with rfl | hb2
    · exact ⟨_, hr⟩
    · exact ih b hb2

/-- C2: the code's balance flag is not the keyed elementwise comparison
the claim states.  `_check_balance` zips the two tallies' values
positionally; on `ChemicalEquation("H -> C")` it compares the hydrogen
count with the carbon count and sets `balance = True`, while the claimed
keyed comparison (`specBalanced`, from the spec's words) is false because
H appears only among the reactants. -/
theorem C2_code_bug_zip_balance :
    ∃ ce, mkChemicalEquation "H -> C" none = some ce ∧ ce.balance = true ∧
      specBalanced ce.rct.elementCounter ce.prod.elementCounter = false := by
  have hs : (mkChemicalEquation "H -> C" none).isSome = true := by
    simp [mkChemicalEquation, splitArrow, splitPlus, pyStrip, pyWords,
      equationProperties, eqItems, itemMoleSpecies, resolveName, mw,
      tokenize, parse, sumStack, eqCounter, itemCounterUpdates, flatScan,
      counterUpdate, checkBalance, Except.map, digitsVal, parseFloat,
      findEnd, findEndGo, reactantProps, productProps, propsLookup,
      listIndex, lookupCount, specBalanced, List.lookup, List.filter,
      aw_H, aw_C, aw_Cl, aw_Na, aw_O, aw_Ca]
  obtain ⟨ce, hce⟩ := Option.isSome_iff_exists.mp hs
  have hb : (mkChemicalEquation "H -> C" none).map
      ChemicalEquation.balance = some true := by
    simp [mkChemicalEquation, splitArrow, splitPlus, pyStrip, pyWords,
      equationProperties, eqItems, itemMoleSpecies, resolveName, mw,
      tokenize, parse, sumStack, eqCounter, itemCounterUpdates, flatScan,
      counterUpdate, checkBalance, Except.map, digitsVal, parseFloat,
      findEnd, findEndGo, reactantProps, productProps, propsLookup,
      listIndex, lookupCount, specBalanced, List.lookup, List.filter,
      aw_H, aw_C, aw_Cl, aw_Na, aw_O, aw_Ca]
  have hsb : (mkChemicalEquation "H -> C" none).map (fun ce =>
      specBalanced ce.rct.elementCounter ce.prod.elementCounter) =
      some false := by
    simp [mkChemicalEquation, splitArrow, splitPlus, pyStrip, pyWords,
      equationProperties, eqItems, itemMoleSpecies, resolveName, mw,
      tokenize, parse, sumStack, eqCounter, itemCounterUpdates, flatScan,
      counterUpdate, checkBalance, Except.map, digitsVal, parseFloat,
      findEnd, findEndGo, reactantProps, productProps, propsLookup,
      listIndex, lookupCount, specBalanced, List.lookup, List.filter,
      aw_H, aw_C, aw_Cl, aw_Na, aw_O, aw_Ca]
    norm_num
  rw [hce] at hb hsb
  simp only [Option.map_some', Option.some.injEq] at hb hsb
  exact ⟨ce, hce, hb, hsb⟩

/-- C6: each side's element tally maps an element to the sum over the
side's items of coefficient times the flat-regex subscript count of the
element in the item's species formula — parentheses are not expanded.
Consequently `"Ca(OH)2"` is tallied with one O and one H although the
fully expanded formula has two of each, and although `mw` computes the
correct weight `74.092`. -/
theorem C6_flat_tally :
    (∀ (names : Option (List (String × String)))
      (comps : List (List Char)) (props : EqProps) (el : String),
      equationProperties names comps = some props →
      lookupCount props.elementCounter el =
        ((props.species.zip props.moles).map
          (fun q => flatCount q.1 el * q.2)).sum) ∧
    (∃ ce, mkChemicalEquation "Ca(OH)2 -> Ca(OH)2" none = some ce ∧
      lookupCount ce.rct.elementCounter "O" = 1 ∧
      lookupCount ce.rct.elementCounter "H" = 1 ∧
      atomsCount (listAtoms astCaOH2) "O" = 2 ∧
      atomsCount (listAtoms astCaOH2) "H" = 2 ∧
      render astCaOH2 = "Ca(OH)2" ∧
      mw "Ca(OH)2" = Except.ok 74.092) := by
  constructor
  · intro names comps props el h
    obtain ⟨items, hi, hspec, hmoles, hmolwt, hmass, hcounter, hsm, hsms,
      hmf, hmsf⟩ := equationProperties_elim names comps props h
    rw [hcounter, eqCounter_lookupCount el items, hspec, hmoles,
      List.zip_map', List.map_map]
    rfl
  · have hs : (mkChemicalEquation "Ca(OH)2 -> Ca(OH)2" none).isSome =
        true := by
      simp [mkChemicalEquation, splitArrow, splitPlus, pyStrip, pyWords,
      equationProperties, eqItems, itemMoleSpecies, resolveName, mw,
      tokenize, parse, sumStack, eqCounter, itemCounterUpdates, flatScan,
      counterUpdate, checkBalance, Except.map, digitsVal, parseFloat,
      findEnd, findEndGo, reactantProps, productProps, propsLookup,
      listIndex, lookupCount, specBalanced, List.lookup, List.filter,
      aw_H, aw_C, aw_Cl, aw_Na, aw_O, aw_Ca]
    obtain ⟨ce, hce⟩ := Option.isSome_iff_exists.mp hs
    have hO : (mkChemicalEquation "Ca(OH)2 -> Ca(OH)2" none).map (fun ce =>
        lookupCount ce.rct.elementCounter "O") = some 1 := by
      simp [mkChemicalEquation, splitArrow, splitPlus, pyStrip, pyWords,
      equationProperties, eqItems, itemMoleSpecies, resolveName, mw,
      tokenize, parse, sumStack, eqCounter, itemCounterUpdates, flatScan,
      counterUpdate, checkBalance, Except.map, digitsVal, parseFloat,
      findEnd, findEndGo, reactantProps, productProps, propsLookup,
      listIndex, lookupCount, specBalanced, List.lookup, List.filter,
      aw_H, aw_C, aw_Cl, aw_Na, aw_O, aw_Ca]
    have hH : (mkChemicalEquation "Ca(OH)2 -> Ca(OH)2" none).map (fun ce =>
        lookupCount ce.rct.elementCounter "H") = some 1 := by
      simp [mkChemicalEquation, splitArrow, splitPlus, pyStrip, pyWords,
      equationProperties, eqItems, itemMoleSpecies, resolveName, mw,
      tokenize, parse, sumStack, eqCounter, itemCounterUpdates, flatScan,
      counterUpdate, checkBalance, Except.map, digitsVal, parseFloat,
      findEnd, findEndGo, reactantProps, productProps, propsLookup,
      listIndex, lookupCount, specBalanced, List.lookup, List.filter,
      aw_H, aw_C, aw_Cl, aw_Na, aw_O, aw_Ca]
    rw [hce] at hO hH
    simp only [Option.map_some', Option.some.injEq] at hO hH
    refine ⟨ce, hce, hO, hH, ?_, ?_, ?_, ?_⟩
    · norm_num [atomsCount, listAtoms, itemAtoms, astCaOH2, multNat,
        List.filter]
      decide
    · norm_num [atomsCount, listAtoms, itemAtoms, astCaOH2, multNat,
        List.filter]
      decide
    · norm_num [render, astCaOH2, listChars, itemChars, numChars, natChars,
        Nat.digits_def', digitChar]
    · simp [mw, tokenize, parse, findEnd, findEndGo, sumStack, aw_Ca, aw_O,
        aw_H, digitsVal, Except.map]
      norm_num

theorem C6_witness :
    ∃ props, equationProperties none ["Ca(OH)2".data] = some props ∧
      lookupCount props.elementCounter "O" =
        ((props.species.zip props.moles).map
          (fun q => flatCount q.1 "O" * q.2)).sum := by
  have hs : (equationProperties none ["Ca(OH)2".data]).isSome = true := by
    simp [mkChemicalEquation, splitArrow, splitPlus, pyStrip, pyWords,
      equationProperties, eqItems, itemMoleSpecies, resolveName, mw,
      tokenize, parse, sumStack, eqCounter, itemCounterUpdates, flatScan,
      counterUpdate, checkBalance, Except.map, digitsVal, parseFloat,
      findEnd, findEndGo, reactantProps, productProps, propsLookup,
      listIndex, lookupCount, specBalanced, List.lookup, List.filter,
      aw_H, aw_C, aw_Cl, aw_Na, aw_O, aw_Ca]
  obtain ⟨props, hp⟩ := Option.isSome_iff_exists.mp hs
  exact ⟨props, hp, C6_flat_tally.1 none ["Ca(OH)2".data] props "O" hp⟩

/-- C7 counterexample: after alias resolution the species list stores the
substituted formula, not the original display token, and the lookup
accessor accepts the substituted formula: with
`names = {"CHAR": "C"}`, `rct_species = ["C"]`,
`reactant_props("CHAR")` raises (is `none`), `reactant_props("C")`
succeeds. -/
theorem C7_counterexample :
    ∃ ce, mkChemicalEquation "CHAR -> C" (some [("CHAR", "C")]) =
        some ce ∧
      ce.rct.species = ["C"] ∧
      reactantProps ce "CHAR" = none ∧
      (reactantProps ce "C").isSome = true := by
  have hs : (mkChemicalEquation "CHAR -> C"
      (some [("CHAR", "C")])).isSome = true := by
    simp [mkChemicalEquation, splitArrow, splitPlus, pyStrip, pyWords,
      equationProperties, eqItems, itemMoleSpecies, resolveName, mw,
      tokenize, parse, sumStack, eqCounter, itemCounterUpdates, flatScan,
      counterUpdate, checkBalance, Except.map, digitsVal, parseFloat,
      findEnd, findEndGo, reactantProps, productProps, propsLookup,
      listIndex, lookupCount, specBalanced, List.lookup, List.filter,
      aw_H, aw_C, aw_Cl, aw_Na, aw_O, aw_Ca]
  obtain ⟨ce, hce⟩ := Option.isSome_iff_exists.mp hs
  have h1 : (mkChemicalEquation "CHAR -> C"
      (some [("CHAR", "C")])).map (fun ce => ce.rct.species) =
      some ["C"] := by
    simp [mkChemicalEquation, splitArrow, splitPlus, pyStrip, pyWords,
      equationProperties, eqItems, itemMoleSpecies, resolveName, mw,
      tokenize, parse, sumStack, eqCounter, itemCounterUpdates, flatScan,
      counterUpdate, checkBalance, Except.map, digitsVal, parseFloat,
      findEnd, findEndGo, reactantProps, productProps, propsLookup,
      listIndex, lookupCount, specBalanced, List.lookup, List.filter,
      aw_H, aw_C, aw_Cl, aw_Na, aw_O, aw_Ca]
  have h2 : (mkChemicalEquation "CHAR -> C"
      (some [("CHAR", "C")])).map (fun ce => reactantProps ce "CHAR") =
      some none := by
    simp [mkChemicalEquation, splitArrow, splitPlus, pyStrip, pyWords,
      equationProperties, eqItems, itemMoleSpecies, resolveName, mw,
      tokenize, parse, sumStack, eqCounter, itemCounterUpdates, flatScan,
      counterUpdate, checkBalance, Except.map, digitsVal, parseFloat,
      findEnd, findEndGo, reactantProps, productProps, propsLookup,
      listIndex, lookupCount, specBalanced, List.lookup, List.filter,
      aw_H, aw_C, aw_Cl, aw_Na, aw_O, aw_Ca]
  have h3 : (mkChemicalEquation "CHAR -> C"
      (some [("CHAR", "C")])).map (fun ce =>
      (reactantProps ce "C").isSome) = some true := by
    simp [mkChemicalEquation, splitArrow, splitPlus, pyStrip, pyWords,
      equationProperties, eqItems, itemMoleSpecies, resolveName, mw,
      tokenize, parse, sumStack, eqCounter, itemCounterUpdates, flatScan,
      counterUpdate, checkBalance, Except.map, digitsVal, parseFloat,
      findEnd, findEndGo, reactantProps, productProps, propsLookup,
      listIndex, lookupCount, specBalanced, List.lookup, List.filter,
      aw_H, aw_C, aw_Cl, aw_Na, aw_O, aw_Ca]
  rw [hce] at h1 h2 h3
  simp only [Option.map_some', Option.some.injEq] at h1 h2 h3
  exact ⟨ce, hce, h1, h2, h3⟩

/-- C7 (amended): the `species_formula` used for the weight computation
and the tally is the `names`-substituted formula; the species list stores
the substituted formula (not the original token), the per-item weights
are `mw` of the stored species, and the convenience accessors accept
exactly the stored (substituted) species names; only the raw
reactants/products item strings keep the original text. -/
theorem C7_amended (names : Option (List (String × String)))
    (comps : List (List Char)) (props : EqProps)
    (h : equationProperties names comps = some props) :
    List.Forall₂ (fun (c : List Char) (sp : String) =>
      ∃ mol sp0, itemMoleSpecies c = some (mol, sp0) ∧
        sp = resolveName names sp0) comps props.species ∧
    List.Forall₂ (fun (sp : String) (w : ℚ) => mw sp = Except.ok w)
      props.species props.molwt ∧
    (∀ s, (propsLookup props s).isSome = true ↔ s ∈ props.species) := by
  obtain ⟨items, hi, hspec, hmoles, hmolwt, hmass, hcounter, hsm, hsms,
    hmf, hmsf⟩ := equationProperties_elim names comps props h
  have hf := eqItems_spec names comps items hi
  refine ⟨?_, ?_, ?_⟩
  · rw [hspec, List.forall₂_map_right_iff]
    refine List.Forall₂.imp ?_ hf
    rintro c it ⟨mol, sp0, him, h1, _, _, _⟩
    exact ⟨mol, sp0, him, h1⟩
  · rw [hspec, hmolwt, List.forall₂_map_right_iff,
      List.forall₂_map_left_iff, List.forall₂_same]
    intro it hit
    obtain ⟨c, mol, sp0, _, _, _, hmw, _⟩ := forall₂_mem_right hf it hit
    exact hmw
  · intro s
    refine propsLookup_isSome props ?_ ?_ ?_ ?_ ?_ s
    · rw [hspec, hmoles]; simp
    · rw [hspec, hmolwt]; simp
    · rw [hspec, hmass]; simp
    · rw [hspec, hmf]; simp
    · rw [hspec, hmsf]; simp

theorem C7_witness :
    ∃ props, equationProperties (some [("CHAR", "C")]) ["CHAR".data] =
        some props ∧
      ((propsLookup props "C").isSome = true ↔ "C" ∈ props.species) := by
  have hs : (equationProperties (some [("CHAR", "C")])
      ["CHAR".data]).isSome = true := by
    simp [mkChemicalEquation, splitArrow, splitPlus, pyStrip, pyWords,
      equationProperties, eqItems, itemMoleSpecies, resolveName, mw,
      tokenize, parse, sumStack, eqCounter, itemCounterUpdates, flatScan,
      counterUpdate, checkBalance, Except.map, digitsVal, parseFloat,
      findEnd, findEndGo, reactantProps, productProps, propsLookup,
      listIndex, lookupCount, specBalanced, List.lookup, List.filter,
      aw_H, aw_C, aw_Cl, aw_Na, aw_O, aw_Ca]
  obtain ⟨props, hp⟩ := Option.isSome_iff_exists.mp hs
  exact ⟨props, hp,
    (C7_amended (some [("CHAR", "C")]) ["CHAR".data] props hp).2.2 "C"⟩

/-- C8 counterexample: a successfully constructed equation with a zero
coefficient has zero total moles, and its mole fractions do not sum to 1
(`0/0` division; `nan` in numpy, `0` in this rational model). -/
theorem C8_counterexample :
    ∃ ce, mkChemicalEquation "0 H2 -> 0 H2" none = some ce ∧
      ce.rct.molFracs.sum ≠ 1 := by
  have hs : (mkChemicalEquation "0 H2 -> 0 H2" none).isSome = true := by
    simp [mkChemicalEquation, splitArrow, splitPlus, pyStrip, pyWords,
      equationProperties, eqItems, itemMoleSpecies, resolveName, mw,
      tokenize, parse, sumStack, eqCounter, itemCounterUpdates, flatScan,
      counterUpdate, checkBalance, Except.map, digitsVal, parseFloat,
      findEnd, findEndGo, reactantProps, productProps, propsLookup,
      listIndex, lookupCount, specBalanced, List.lookup, List.filter,
      aw_H, aw_C, aw_Cl, aw_Na, aw_O, aw_Ca]
  obtain ⟨ce, hce⟩ := Option.isSome_iff_exists.mp hs
  have h1 : (mkChemicalEquation "0 H2 -> 0 H2" none).map (fun ce =>
      ce.rct.molFracs.sum) = some 0 := by
    simp [mkChemicalEquation, splitArrow, splitPlus, pyStrip, pyWords,
      equationProperties, eqItems, itemMoleSpecies, resolveName, mw,
      tokenize, parse, sumStack, eqCounter, itemCounterUpdates, flatScan,
      counterUpdate, checkBalance, Except.map, digitsVal, parseFloat,
      findEnd, findEndGo, reactantProps, productProps, propsLookup,
      listIndex, lookupCount, specBalanced, List.lookup, List.filter,
      aw_H, aw_C, aw_Cl, aw_Na, aw_O, aw_Ca]
  rw [hce] at h1
  simp only [Option.map_some', Option.some.injEq] at h1
  refine ⟨ce, hce, ?_⟩
  rw [h1]
  norm_num

/-- C8 (amended): on each side of a successfully constructed equation
whose total moles (respectively total mass) is nonzero, the mole
fractions (respectively mass fractions) sum to exactly 1. -/
theorem C8_amended (names : Option (List (String × String)))
    (comps : List (List Char)) (props : EqProps)
    (h : equationProperties names comps = some props) :
    (props.sumMoles ≠ 0 → props.molFracs.sum = 1) ∧
    (props.sumMass ≠ 0 → props.massFracs.sum = 1) := by
  obtain ⟨items, hi, hspec, hmoles, hmolwt, hmass, hcounter, hsm, hsms,
    hmf, hmsf⟩ := equationProperties_elim names comps props h
  constructor
  · intro hnz
    rw [hsm] at hnz
    rw [hmf, sum_map_div]
    exact div_self hnz
  · intro hnz
    rw [hsms] at hnz
    rw [hmsf, sum_map_div]
    exact div_self hnz

theorem C8_witness :
    ∃ props, equationProperties none ["2 HCl".data, "2 Na".data] =
        some props ∧
      props.molFracs.sum = 1 ∧ props.massFracs.sum = 1 := by
  have hs : (equationProperties none
      ["2 HCl".data, "2 Na".data]).isSome = true := by
    simp [mkChemicalEquation, splitArrow, splitPlus, pyStrip, pyWords,
      equationProperties, eqItems, itemMoleSpecies, resolveName, mw,
      tokenize, parse, sumStack, eqCounter, itemCounterUpdates, flatScan,
      counterUpdate, checkBalance, Except.map, digitsVal, parseFloat,
      findEnd, findEndGo, reactantProps, productProps, propsLookup,
      listIndex, lookupCount, specBalanced, List.lookup, List.filter,
      aw_H, aw_C, aw_Cl, aw_Na, aw_O, aw_Ca]
  obtain ⟨props, hp⟩ := Option.isSome_iff_exists.mp hs
  have h1 : (equationProperties none ["2 HCl".data, "2 Na".data]).map
      EqProps.sumMoles = some 4 := by
    simp [mkChemicalEquation, splitArrow, splitPlus, pyStrip, pyWords,
      equationProperties, eqItems, itemMoleSpecies, resolveName, mw,
      tokenize, parse, sumStack, eqCounter, itemCounterUpdates, flatScan,
      counterUpdate, checkBalance, Except.map, digitsVal, parseFloat,
      findEnd, findEndGo, reactantProps, productProps, propsLookup,
      listIndex, lookupCount, specBalanced, List.lookup, List.filter,
      aw_H, aw_C, aw_Cl, aw_Na, aw_O, aw_Ca]
    norm_num
  have h2 : (equationProperties none ["2 HCl".data, "2 Na".data]).map
      EqProps.sumMass = some 118.896 := by
    simp [mkChemicalEquation, splitArrow, splitPlus, pyStrip, pyWords,
      equationProperties, eqItems, itemMoleSpecies, resolveName, mw,
      tokenize, parse, sumStack, eqCounter, itemCounterUpdates, flatScan,
      counterUpdate, checkBalance, Except.map, digitsVal, parseFloat,
      findEnd, findEndGo, reactantProps, productProps, propsLookup,
      listIndex, lookupCount, specBalanced, List.lookup, List.filter,
      aw_H, aw_C, aw_Cl, aw_Na, aw_O, aw_Ca]
    norm_num
  rw [hp] at h1 h2
  simp only [Option.map_some', Option.some.injEq] at h1 h2
  have hc := C8_amended none ["2 HCl".data, "2 Na".data] props hp
  refine ⟨props, hp, hc.1 ?_, hc.2 ?_⟩
  · rw [h1]
    norm_num
  · rw [h2]
    norm_num

end Chemics
